import Mathlib

set_option maxRecDepth 10000

/-!
Verification of the Othello-AI board engine and search code.

The Python sources are shallowly embedded: `uint64` bitboards become `Nat`
(with explicit 64-bit masking where the original code masks), numpy
`int16[:, :]` boards become functions `Int → Int → Int`, Python `while`
loops over board rays become fuel-bounded recursions (a ray inside an 8×8
board has at most 8 cells, so fuel 8 reproduces the loop exactly), the
transposition-table dict becomes an association list, and `np.random`
nondeterminism becomes an explicit oracle parameter.
-/

namespace Othello

/-- All 64 bits set; `~x` on a `uint64` is `U64MASK ^^^ x` for `x < 2^64`. -/
def U64MASK : Nat := 0xFFFFFFFFFFFFFFFF

/-- A board as in `utils/bitboard_utils.py`: `(player1_board, player2_board)`. -/
abbrev Bitboard := Nat × Nat

/-- `(r >= 0 and r < 8) and (c >= 0 and c < 8)` as used by the ray walks. -/
def inRange (r c : Int) : Bool :=
  decide (0 ≤ r) && decide (r < 8) && decide (0 ≤ c) && decide (c < 8)

/-- Bit index `8 * row + col` of a cell (meaningful when `inRange r c`). -/
def idx (r c : Int) : Nat := (8 * r + c).toNat

/-- `DIRECTIONS` from `constants.py`. -/
def DIRECTIONS : Nat → Int × Int
  | 0 => (-1, 0)
  | 1 => (-1, 1)
  | 2 => (0, 1)
  | 3 => (1, 1)
  | 4 => (1, 0)
  | 5 => (1, -1)
  | 6 => (0, -1)
  | _ => (-1, -1)

namespace BitboardUtils

/-- `get_player_board` from `utils/bitboard_utils.py`:
`board[player - 1], board[2 - player]` for `player ∈ {1, 2}`. -/
def get_player_board (board : Bitboard) (player : Nat) : Nat × Nat :=
  if player = 1 then (board.1, board.2) else (board.2, board.1)

/-- The loop of `count_ones` (`while x: count += x & 1; x >>= 1`), fuel-bounded;
64 iterations empty any `x < 2^64`. -/
def countOnesAux : Nat → Nat → Nat
  | 0, _ => 0
  | fuel + 1, x => if x = 0 then 0 else x % 2 + countOnesAux fuel (x / 2)

/-- `count_ones` from `utils/bitboard_utils.py`. -/
def count_ones (x : Nat) : Nat := countOnesAux 64 x

/-- `shift_n`: `(mask >> 8) & 0x00FFFFFFFFFFFFFF`. -/
def shift_n (mask : Nat) : Nat := (mask >>> 8) &&& 0x00FFFFFFFFFFFFFF

/-- `shift_s`: `(mask << 8) & 0xFFFFFFFFFFFFFF00`. -/
def shift_s (mask : Nat) : Nat := (mask <<< 8) &&& 0xFFFFFFFFFFFFFF00

/-- `shift_e`: `(mask << 1) & 0xFEFEFEFEFEFEFEFE`. -/
def shift_e (mask : Nat) : Nat := (mask <<< 1) &&& 0xFEFEFEFEFEFEFEFE

/-- `shift_o`: `(mask >> 1) & 0x7F7F7F7F7F7F7F7F`. -/
def shift_o (mask : Nat) : Nat := (mask >>> 1) &&& 0x7F7F7F7F7F7F7F7F

/-- `shift_ne`: `(mask >> 7) & 0xFEFEFEFEFEFEFEFE & 0x00FFFFFFFFFFFFFF`. -/
def shift_ne (mask : Nat) : Nat :=
  (mask >>> 7) &&& 0xFEFEFEFEFEFEFEFE &&& 0x00FFFFFFFFFFFFFF

/-- `shift_no`: `(mask >> 9) & 0x7F7F7F7F7F7F7F7F & 0x00FFFFFFFFFFFFFF`. -/
def shift_no (mask : Nat) : Nat :=
  (mask >>> 9) &&& 0x7F7F7F7F7F7F7F7F &&& 0x00FFFFFFFFFFFFFF

/-- `shift_se`: `(mask << 9) & 0xFEFEFEFEFEFEFEFE & 0xFFFFFFFFFFFFFF00`. -/
def shift_se (mask : Nat) : Nat :=
  (mask <<< 9) &&& 0xFEFEFEFEFEFEFEFE &&& 0xFFFFFFFFFFFFFF00

/-- `shift_so`: `(mask << 7) & 0x7F7F7F7F7F7F7F7F & 0xFFFFFFFFFFFFFF00`. -/
def shift_so (mask : Nat) : Nat :=
  (mask <<< 7) &&& 0x7F7F7F7F7F7F7F7F &&& 0xFFFFFFFFFFFFFF00

/-- `find_empty_neighbors_of_player` from `utils/bitboard_utils.py`. -/
def find_empty_neighbors_of_player (player_id : Nat) (board : Bitboard) : Nat :=
  let player_board := if player_id = 1 then board.1 else board.2
  let opponent_board := if player_id = 1 then board.2 else board.1
  let all_players_board := player_board ||| opponent_board
  let empty_board := U64MASK ^^^ all_players_board
  empty_board &&&
    (shift_n player_board ||| shift_s player_board ||| shift_e player_board |||
      shift_o player_board ||| shift_ne player_board ||| shift_no player_board |||
      shift_se player_board ||| shift_so player_board)

/-- The `while` loop of `check_line`: walk from `(r, c)` in direction `(dr, dc)`
while on the board and on an opponent disk, counting the traversed disks.
Returns the final `(r, c, opponent_tiles)`. -/
def lineWalk (opponent_board : Nat) (dr dc : Int) :
    Nat → Int → Int → Nat → Int × Int × Nat
  | 0, r, c, n => (r, c, n)
  | fuel + 1, r, c, n =>
    if inRange r c && opponent_board.testBit (idx r c) then
      lineWalk opponent_board dr dc fuel (r + dr) (c + dc) (n + 1)
    else (r, c, n)

/-- `check_line` from `utils/bitboard_utils.py`. -/
def check_line (row col : Int) (direction : Nat) (player : Nat)
    (board : Bitboard) : Bool :=
  let d := DIRECTIONS direction
  let pb := (get_player_board board player).1
  let ob := (get_player_board board player).2
  let w := lineWalk ob d.1 d.2 8 (row + d.1) (col + d.2) 0
  inRange w.1 w.2.1 && (pb.testBit (idx w.1 w.2.1) && decide (0 < w.2.2))

/-- `is_valid_move` from `utils/bitboard_utils.py`. -/
def is_valid_move (move : Int × Int) (player : Nat) (board : Bitboard) : Bool :=
  if (board.1 ||| board.2).testBit (idx move.1 move.2) then false
  else (List.range 8).any fun direction =>
    check_line move.1 move.2 direction player board

/-- `get_possible_moves` from `utils/bitboard_utils.py`: row-major scan of the
empty cells adjacent to the opponent, keeping those passing `is_valid_move`. -/
def get_possible_moves (player : Nat) (board : Bitboard) : List (Nat × Nat) :=
  let opponent_id := 3 - player
  let empty_neighbors_opponent := find_empty_neighbors_of_player opponent_id board
  (List.range 8).flatMap fun row =>
    (List.range 8).filterMap fun col =>
      if empty_neighbors_opponent.testBit (8 * row + col) &&
          is_valid_move ((row : Int), (col : Int)) player board then
        some (row, col)
      else none

/-- The inner `while` loop of `flip_tiles`: starting at `(r, c)`, flip every
contiguous current-opponent disk in direction `(dr, dc)` from the opponent
bitboard to the player bitboard. -/
def flipRay (dr dc : Int) : Nat → Int → Int → Nat × Nat → Nat × Nat
  | 0, _, _, po => po
  | fuel + 1, r, c, po =>
    if inRange r c && po.2.testBit (idx r c) then
      flipRay dr dc fuel (r + dr) (c + dc)
        (po.1 ||| (1 <<< idx r c), po.2 &&& (U64MASK ^^^ (1 <<< idx r c)))
    else po

/-- `flip_tiles` from `utils/bitboard_utils.py`: set the move bit, then for
each of the 8 directions whose `check_line` (on the input board) succeeds,
run the flipping walk on the evolving pair of bitboards. -/
def flip_tiles (move : Int × Int) (player : Nat) (board : Bitboard) : Bitboard :=
  let row := move.1
  let col := move.2
  let pb := (get_player_board board player).1 ||| (1 <<< idx row col)
  let ob := (get_player_board board player).2
  let res := (List.range 8).foldl
    (fun po direction =>
      if check_line row col direction player board then
        let d := DIRECTIONS direction
        flipRay d.1 d.2 8 (row + d.1) (col + d.2) po
      else po)
    (pb, ob)
  if player = 1 then res else (res.2, res.1)

end BitboardUtils

namespace RootBitboardUtils

/-- `flip_tiles` from `bitboard_utils.py` (the repository-root module): same
flipping walk as the `utils/` version — its `check_line` is textually the
same function, so it is shared — but the move bit is set *after* the
direction loop instead of before it. -/
def flip_tiles (move : Int × Int) (player : Nat) (board : Bitboard) : Bitboard :=
  let row := move.1
  let col := move.2
  let pb := (BitboardUtils.get_player_board board player).1
  let ob := (BitboardUtils.get_player_board board player).2
  let res := (List.range 8).foldl
    (fun po direction =>
      if BitboardUtils.check_line row col direction player board then
        let d := DIRECTIONS direction
        BitboardUtils.flipRay d.1 d.2 8 (row + d.1) (col + d.2) po
      else po)
    (pb, ob)
  let res2 := (res.1 ||| (1 <<< idx row col), res.2)
  if player = 1 then res2 else (res2.2, res2.1)

end RootBitboardUtils

/-! ### `array_utils.py`: the 8×8 `int16` array board used by `minmax.py`.
A numpy array is embedded as a total function `Int → Int → Int`; the code
only ever reads cells after an explicit in-range test. -/

/-- An `int16[:, :]` game board, a list of 8 rows of 8 cells:
0 = free, 1 = player 1, 2 = player 2. -/
abbrev Board2D := List (List Int)

/-- `board[r, c]` (the code only reads cells after an in-range test). -/
def cell (board : Board2D) (r c : Int) : Int :=
  (board.getD r.toNat []).getD c.toNat 0

namespace ArrayUtils

/-- `board[r, c] = v`. -/
def setCell (board : Board2D) (r c v : Int) : Board2D :=
  board.set r.toNat ((board.getD r.toNat []).set c.toNat v)

/-- The `while` loop of `check_line` in `array_utils.py`: walk while on the
board and on a cell equal to `target`, counting steps. -/
def lineWalk2D (board : Board2D) (target : Int) (dr dc : Int) :
    Nat → Int → Int → Nat → Int × Int × Nat
  | 0, r, c, n => (r, c, n)
  | fuel + 1, r, c, n =>
    if inRange r c && decide (cell board r c = target) then
      lineWalk2D board target dr dc fuel (r + dr) (c + dc) (n + 1)
    else (r, c, n)

/-- `check_line` from `array_utils.py`. -/
def check_line (row col : Int) (direction : Int × Int) (player : Int)
    (board : Board2D) : Bool :=
  let opponent := 3 - player
  let w := lineWalk2D board opponent direction.1 direction.2 8
    (row + direction.1) (col + direction.2) 0
  inRange w.1 w.2.1 && (decide (cell board w.1 w.2.1 = player) && decide (0 < w.2.2))

/-- `is_valid_move` from `array_utils.py`. -/
def is_valid_move (move : Int × Int) (player : Int) (board : Board2D) : Bool :=
  if cell board move.1 move.2 ≠ 0 then false
  else (List.range 8).any fun d =>
    check_line move.1 move.2 (DIRECTIONS d) player board

/-- `get_possible_moves` from `array_utils.py`: full row-major scan. -/
def get_possible_moves (player : Int) (board : Board2D) : List (Int × Int) :=
  (List.range 8).flatMap fun (r : Nat) =>
    (List.range 8).filterMap fun (c : Nat) =>
      if cell board (r : Int) (c : Int) = 0 &&
          is_valid_move ((r : Int), (c : Int)) player board then
        some ((r : Int), (c : Int))
      else none

/-- The inner `while` loop of `flip_tiles` in `array_utils.py`: starting at
`(rr, cc)`, overwrite cells with `player` while on the board and not already
a `player` cell. -/
def flipWalk2D (player dr dc : Int) :
    Nat → Int → Int → Board2D → Board2D
  | 0, _, _, board => board
  | fuel + 1, rr, cc, board =>
    if inRange rr cc && decide (cell board rr cc ≠ player) then
      flipWalk2D player dr dc fuel (rr + dr) (cc + dc) (setCell board rr cc player)
    else board

/-- `flip_tiles` from `array_utils.py`: place the disk, then for each
direction rerun `check_line` on the *current* (already partially flipped)
board and flip along it.  In Python this mutates the array in place; the
embedding returns the final array (see `flipTilesFrame` for the callers,
which always pass a fresh `np.copy`). -/
def flip_tiles (move : Int × Int) (player : Int) (board : Board2D) : Board2D :=
  let b0 := setCell board move.1 move.2 player
  (List.range 8).foldl
    (fun b d =>
      let dir := DIRECTIONS d
      if check_line move.1 move.2 dir player b then
        flipWalk2D player dir.1 dir.2 8 (move.1 + dir.1) (move.2 + dir.2) b
      else b)
    b0

end ArrayUtils

/-! ### `heuristics.py` (the parts the claims touch). -/

namespace Heuristics

/-- `STATIC_WEIGHTS` from `heuristics.py`. -/
def STATIC_WEIGHTS_LIST : List (List Int) :=
  [[4, -3, 2, 2, 2, 2, -3, 4],
   [-3, -4, -1, -1, -1, -1, -4, -3],
   [2, -1, 1, 0, 0, 1, -1, 2],
   [2, -1, 0, 1, 1, 0, -1, 2],
   [2, -1, 0, 1, 1, 0, -1, 2],
   [2, -1, 1, 0, 0, 1, -1, 2],
   [-3, -4, -1, -1, -1, -1, -4, -3],
   [4, -3, 2, 2, 2, 2, -3, 4]]

/-- Cell lookup into `STATIC_WEIGHTS`. -/
def STATIC_WEIGHTS (r c : Int) : Int :=
  ((STATIC_WEIGHTS_LIST.getD r.toNat []).getD c.toNat 0)

/-- `np.sum(mask * STATIC_WEIGHTS)` for the mask `board == who`. -/
def maskWeightSum (board : Board2D) (who : Int) : Int :=
  ((List.range 8).map fun r =>
    ((List.range 8).map fun c =>
      if cell board (r : Int) (c : Int) = who then STATIC_WEIGHTS (r : Int) (c : Int)
      else 0).sum).sum

/-- `static_weights_heuristic` from `heuristics.py`. -/
def static_weights_heuristic (board : Board2D) (player_id : Int) : Int :=
  maskWeightSum board player_id - maskWeightSum board (3 - player_id)

/-- `disk_parity_heuristic` from `heuristics.py`:
`int16(100 * (player_disks - opponent_disks) / (player_disks + opponent_disks))`.
The numba-compiled `/` is float64 division followed by an `int16` truncation;
for `|player_disks|, |opponent_disks| ≤ 64` the float result is exact enough
that the truncation equals exact integer truncation toward zero (`Int.tdiv`).
When both counts are 0 the code computes `0.0 / 0.0` with no guard — a
`ZeroDivisionError` in plain Python, an undefined NaN-to-int cast under
numba — embedded as `none`. -/
def disk_parity_heuristic (player_disks opponent_disks : Int) : Option Int :=
  if player_disks + opponent_disks = 0 then none
  else some (Int.tdiv (100 * (player_disks - opponent_disks))
    (player_disks + opponent_disks))

/-- `array_to_bitboard` from `utils/bitboard_utils.py` (used by the standalone
heuristics to convert the array board). -/
def array_to_bitboard (board : Board2D) : Bitboard :=
  (List.range 8).foldl
    (fun bb (r : Nat) =>
      (List.range 8).foldl
        (fun bb (c : Nat) =>
          if cell board (r : Int) (c : Int) = 1 then
            (bb.1 ||| Nat.shiftLeft 1 (8 * r + c), bb.2)
          else if cell board (r : Int) (c : Int) = 2 then
            (bb.1, bb.2 ||| Nat.shiftLeft 1 (8 * r + c))
          else bb)
        bb)
    ((0, 0) : Bitboard)

/-- `disk_parity_heuristic_standalone` from `heuristics.py`. -/
def disk_parity_heuristic_standalone (board : Board2D) (player_id : Nat) :
    Option Int :=
  let bitboard := array_to_bitboard board
  let pb := (BitboardUtils.get_player_board bitboard player_id).1
  let ob := (BitboardUtils.get_player_board bitboard player_id).2
  disk_parity_heuristic (BitboardUtils.count_ones pb) (BitboardUtils.count_ones ob)

end Heuristics

/-! ### `utils/zobrist_hashing.py`.
`initialize_zobrist` fills the table with 64-bit values from Python's seeded
Mersenne Twister; those values are not reproducible here, so the table is a
parameter.  Note the hash depends only on the board — not on the side to move. -/

/-- A Zobrist table: cell `(x, y)` × occupant (1 or 2) to a 64-bit key. -/
abbrev ZTable := Int → Int → Int → Nat

/-- `compute_single_zobrist_hash` from `utils/zobrist_hashing.py`. -/
def compute_single_zobrist_hash (board : Board2D) (zobrist_table : ZTable) : Nat :=
  (List.range 8).foldl
    (fun h x =>
      (List.range 8).foldl
        (fun h y =>
          let piece := cell board (x : Int) (y : Int)
          if piece ≠ 0 then h ^^^ zobrist_table (x : Int) (y : Int) piece else h)
        h)
    0

/-- `compute_zobrist_hash` from `utils/zobrist_hashing.py` (the symmetry
variants in the source are commented out: it is the single hash). -/
def compute_zobrist_hash (board : Board2D) (zobrist_table : ZTable) : Nat :=
  compute_single_zobrist_hash board zobrist_table

/-! ### `minmax.py`: negamax with transposition table, and MTD(f). -/

namespace Minmax

/-- `EXACT` from `minmax.py`. -/
def EXACT : Nat := 2

/-- `UPPERBOUND` from `minmax.py`. -/
def UPPERBOUND : Nat := 1

/-- `LOWERBOUND` from `minmax.py`. -/
def LOWERBOUND : Nat := 0

/-- `INT16_POSINF` from `constants.py`. -/
def INT16_POSINF : Int := 32767

/-- `INT16_NEGINF` from `constants.py`. -/
def INT16_NEGINF : Int := -32767

/-- `TTEntry` from `minmax.py`. -/
structure TTEntry where
  value : Int
  depth : Nat
  flag : Nat
  best_move : Int × Int
  deriving Repr, DecidableEq

/-- The transposition table: a Python dict keyed by the Zobrist hash.
Insertion conses; lookup takes the most recent binding, which is dict
semantics. -/
abbrev TT := List (Nat × TTEntry)

/-- Dict lookup. -/
def ttLookup (tt : TT) (k : Nat) : Option TTEntry :=
  (tt.find? fun p => p.1 = k).map Prod.snd

/-- Dict overwrite. -/
def ttInsert (k : Nat) (v : TTEntry) (tt : TT) : TT := (k, v) :: tt

/-- Insert into a list keeping it sorted by strictly greater key first
(stable: equal keys keep their relative order). -/
def insertDesc (key : Int × Int → Int) (x : Int × Int) :
    List (Int × Int) → List (Int × Int)
  | [] => [x]
  | y :: ys => if key x > key y then x :: y :: ys else y :: insertDesc key x ys

/-- Stable sort, descending by `key`. -/
def sortDesc (key : Int × Int → Int) : List (Int × Int) → List (Int × Int)
  | [] => []
  | x :: xs => insertDesc key x (sortDesc key xs)

/-- The per-move score of `sort_moves` in `minmax.py`: 9999 for the
transposition table's remembered move, else the static-weights value of the
board after playing the move on a copy. -/
def moveScore (board : Board2D) (player_id : Int) (previous_best_move : Int × Int)
    (m : Int × Int) : Int :=
  if m = previous_best_move then 9999
  else Heuristics.static_weights_heuristic
    (ArrayUtils.flip_tiles m player_id board) player_id

/-- `sort_moves` from `minmax.py`.  `np.argsort(-move_scores)` sorts by
descending score with an unspecified order among ties; since the caller
shuffles the move list first (the shuffle is an explicit oracle in this
embedding), the realizable outputs are exactly the score-descending
arrangements, here produced by a stable sort of the shuffled list. -/
def sort_moves (board : Board2D) (player_id : Int) (moves : List (Int × Int))
    (previous_best_move : Int × Int) : List (Int × Int) :=
  sortDesc (moveScore board player_id previous_best_move) moves

/-- The configuration of a `MinimaxPlayer`: its heuristic (`self.heuristic`,
chosen by name in the constructor), its Zobrist table (random values from a
seeded Mersenne Twister, hence a parameter), the `np.random.shuffle` outcome
as an oracle on move lists, and the player id. -/
structure MinimaxCfg where
  heuristic : Board2D → Int → Int
  table : ZTable
  shuffle : List (Int × Int) → List (Int × Int)
  id : Int

/-- State of the move loop in `negamax`: best value, best move, the running
`alpha`, the threaded transposition table, and whether the `break` on
`alpha >= beta` has fired. -/
structure NegaLoopSt where
  max_eval : Int
  best_move : Int × Int
  alpha : Int
  tt : TT
  done : Bool

/-- The body of `negamax` *after* the transposition-table probe: terminal and
pass handling, the ordered move loop, and the final table store.  `rec` is the
recursive search (one fuel step smaller), `zhash` the hash computed on entry,
`alpha_orig` the window bound saved before the probe adjusted it. -/
def negamaxMain (rec : Board2D → Nat → Int → Int → Int → TT → Int × (Int × Int) × TT)
    (cfg : MinimaxCfg) (zhash : Nat) (board : Board2D) (depth : Nat)
    (alpha beta color alpha_orig : Int) (previous_best_move : Int × Int)
    (tt : TT) : Int × (Int × Int) × TT :=
  let player_id := if color = 1 then cfg.id else 3 - cfg.id
  let opponent_id := 3 - player_id
  let player_moves := ArrayUtils.get_possible_moves player_id board
  let opponent_moves := ArrayUtils.get_possible_moves opponent_id board
  if depth = 0 ∨ (player_moves = [] ∧ opponent_moves = []) then
    (color * cfg.heuristic board cfg.id, (-1, -1), tt)
  else if player_moves = [] then
    let r := rec board depth (-beta) (-alpha) (-color) tt
    (-r.1, (-1, -1), r.2.2)
  else
    let sorted_moves := sort_moves board player_id (cfg.shuffle player_moves)
      previous_best_move
    let st := sorted_moves.foldl
      (fun st m =>
        if st.done then st
        else
          let temp_board := ArrayUtils.flip_tiles m player_id board
          let r := rec temp_board (depth - 1) (-beta) (-st.alpha) (-color) st.tt
          let eval_state := -r.1
          let max_eval' := if eval_state > st.max_eval then eval_state else st.max_eval
          let best_move' := if eval_state > st.max_eval then m else st.best_move
          let alpha' := max st.alpha eval_state
          ⟨max_eval', best_move', alpha', r.2.2, decide (alpha' ≥ beta)⟩)
      (⟨-32767, (-1, -1), alpha, tt, false⟩ : NegaLoopSt)
    let flag := if st.max_eval ≤ alpha_orig then UPPERBOUND
      else if st.max_eval ≥ beta then LOWERBOUND else EXACT
    (st.max_eval, st.best_move,
      ttInsert zhash ⟨st.max_eval, depth, flag, st.best_move⟩ st.tt)

/-- `negamax` from `minmax.py`, fuel-bounded.  One unit of fuel is one Python
call frame; `negamax` with fuel `2 * depth + 2` never reaches the fuel-out
branch because a pass (which keeps `depth`) is always followed by a node whose
side has a move.  The structure before `negamaxMain` is the entry probe of the
transposition table. -/
def negamaxF (cfg : MinimaxCfg) :
    Nat → Board2D → Nat → Int → Int → Int → TT → Int × (Int × Int) × TT
  | 0, _, _, _, _, _, tt => (0, (-1, -1), tt)
  | fuel + 1, board, depth, alpha, beta, color, tt =>
    let zhash := compute_zobrist_hash board cfg.table
    let rec2 := fun b d a b2 c t => negamaxF cfg fuel b d a b2 c t
    match ttLookup tt zhash with
    | some e =>
      if e.depth ≥ depth then
        if e.flag = EXACT then (e.value, e.best_move, tt)
        else
          let alpha' := if e.flag = LOWERBOUND then max alpha e.value else alpha
          let beta' := if e.flag = UPPERBOUND then min beta e.value else beta
          if alpha' ≥ beta' then (e.value, e.best_move, tt)
          else negamaxMain rec2 cfg zhash board depth alpha' beta' color alpha
            e.best_move tt
      else negamaxMain rec2 cfg zhash board depth alpha beta color alpha
        e.best_move tt
    | none =>
      negamaxMain rec2 cfg zhash board depth alpha beta color alpha (-1, -1) tt

/-- `negamax` with enough fuel for its depth (see `negamaxF`). -/
def negamax (cfg : MinimaxCfg) (board : Board2D) (depth : Nat)
    (alpha beta color : Int) (tt : TT) : Int × (Int × Int) × TT :=
  negamaxF cfg (2 * depth + 2) board depth alpha beta color tt

/-- The `while lowerBound < upperBound` loop of `mtdf`, fuel-bounded (`none`
means the fuel ran out before the loop exited). -/
def mtdfLoop (cfg : MinimaxCfg) (board : Board2D) (depth : Nat) :
    Nat → Int → (Int × Int) → Int → Int → TT → Option (Int × (Int × Int) × TT)
  | 0, _, _, _, _, _ => none
  | fuel + 1, g, best_move, upperBound, lowerBound, tt =>
    if lowerBound < upperBound then
      let beta := max g (lowerBound + 1)
      let r := negamax cfg board depth (beta - 1) beta 1 tt
      if r.1 < beta then
        mtdfLoop cfg board depth fuel r.1 r.2.1 r.1 lowerBound r.2.2
      else
        mtdfLoop cfg board depth fuel r.1 r.2.1 upperBound r.1 r.2.2
    else some (g, best_move, tt)

/-- `mtdf` from `minmax.py`, with explicit loop fuel. -/
def mtdf (cfg : MinimaxCfg) (board : Board2D) (f : Int) (depth : Nat) (tt : TT)
    (fuel : Nat) : Option (Int × (Int × Int) × TT) :=
  mtdfLoop cfg board depth fuel f (-1, -1) INT16_POSINF INT16_NEGINF tt

end Minmax

/-! ### `search_tree.py`: the arena-indexed MCTS tree.
`search_tree.py` imports `count_bits`, `get_moves_index`, `place_disks` and
`possible_moves` from modules (`bitboard_helpers`, a bitboard module with
these names) that are not part of the repository sources; those are modelled
from the spec below. -/

namespace SearchTree

/-- Modelled from the spec: `possible_moves(player_bb, opponent_bb, empty)`
is imported by `search_tree.py` from a module missing from the sources.
Per spec §4.1, a square is legal iff it is empty and some one of the 8 rays
starts with ≥1 contiguous opponent disks and terminates on a same-side disk;
this reuses the ray test of `utils/bitboard_utils.py`, which implements
exactly that rule. -/
def possible_moves (player_bb opponent_bb empty_squares : Nat) : Nat :=
  (List.range 64).foldl
    (fun acc i =>
      if empty_squares.testBit i &&
          BitboardUtils.is_valid_move ((i / 8 : Nat), (i % 8 : Nat)) 1
            (player_bb, opponent_bb) then
        acc ||| (1 <<< i)
      else acc)
    0

/-- Modelled from the spec: `get_moves_index` (missing from the sources)
turns a move bitboard into the list of set square indices, ascending. -/
def get_moves_index (bb : Nat) : List Int :=
  (List.range 64).filterMap fun i => if bb.testBit i then some (i : Int) else none

/-- Modelled from the spec: `place_disks(selected_square, opponent_board)`
(missing from the sources) returns the disks flipped by playing on
`selected_square`.  The spec's flip rule needs the mover's own disks, which
this two-argument signature does not receive; the model flips every maximal
contiguous opponent run that ends on an on-board non-opponent cell.  No
theorem below depends on its value. -/
def place_disks (selected_square opponent_board : Nat) : Nat :=
  let i := selected_square.log2
  let r : Int := (i / 8 : Nat)
  let c : Int := (i % 8 : Nat)
  (List.range 8).foldl
    (fun acc d =>
      let dir := DIRECTIONS d
      let w := BitboardUtils.lineWalk opponent_board dir.1 dir.2 8
        (r + dir.1) (c + dir.2) 0
      if inRange w.1 w.2.1 then
        acc ||| (List.range w.2.2).foldl
          (fun run j =>
            run ||| (1 <<< idx (r + (j + 1 : Nat) * dir.1) (c + (j + 1 : Nat) * dir.2)))
          0
      else acc)
    0

/-- `MAX_NODES` from `search_tree.py`. -/
def MAX_NODES : Nat := 2000000

/-- Functional update of an arena array. -/
def upd {α : Type} (f : Nat → α) (i : Nat) (v : α) : Nat → α :=
  fun j => if j = i then v else f j

/-- The `SearchTree` struct of `search_tree.py`: arena arrays as functions. -/
structure Tree where
  nodes_count : Nat
  root_id : Nat
  parent : Nat → Int
  first_child : Nat → Int
  num_children : Nat → Int
  moves : Nat → Int
  player_boards : Nat → Nat
  opponent_boards : Nat → Nat
  num_visits : Nat → Int
  reward : Nat → Int

/-- `search_tree_ctor` from `search_tree.py`. -/
def search_tree_ctor : Tree where
  nodes_count := 0
  root_id := 0
  parent := fun _ => -1
  first_child := fun _ => -1
  num_children := fun _ => -1
  moves := fun _ => -1
  player_boards := fun _ => 0
  opponent_boards := fun _ => 0
  num_visits := fun _ => -1
  reward := fun _ => -1

/-- `reset` from `search_tree.py`. -/
def reset (t : Tree) : Tree :=
  { t with
    nodes_count := 1
    root_id := 0
    parent := upd t.parent 0 (-1)
    first_child := upd t.first_child 0 (-1)
    num_children := upd t.num_children 0 (-1)
    num_visits := upd t.num_visits 0 0
    reward := upd t.reward 0 0 }

/-- `define_root` from `search_tree.py`; returns the tree and the root id. -/
def define_root (t : Tree) (player_board opponent_board : Nat) : Tree × Nat :=
  let t1 := reset t
  let t2 := { t1 with
    player_boards := upd t1.player_boards t1.root_id player_board
    opponent_boards := upd t1.opponent_boards t1.root_id opponent_board }
  (t2, t2.root_id)

/-- `compute_boards` from `search_tree.py`. -/
def compute_boards (t : Tree) (node_id : Nat) (move : Int) : Nat × Nat :=
  if move = -1 then
    (t.opponent_boards node_id, t.player_boards node_id)
  else
    let opponent_bb := t.opponent_boards node_id
    let selected_square := 1 <<< move.toNat
    let flipped_disks := place_disks selected_square opponent_bb
    (t.player_boards node_id ||| (selected_square ||| flipped_disks),
      opponent_bb ^^^ flipped_disks)

/-- `expand` from `search_tree.py`.  `oracle` stands for the
`np.random.choice` draw (reduced modulo the number of candidates); the
`raise` on arena overflow — and `np.random.choice` on an empty candidate
set — become `Except.error`.  Note the source stores the pair returned by
`compute_boards` into `(opponent_boards, player_boards)` in that order. -/
def expand (t : Tree) (node_id : Nat) (oracle : Nat) :
    Except String (Tree × Nat) :=
  if t.first_child node_id ≠ -1 then
    let first_child_id := (t.first_child node_id).toNat
    let num_children := (t.num_children node_id).toNat
    let unvisited := (List.range num_children).filter
      (fun i => t.num_visits (first_child_id + i) = 0)
    match unvisited.get? (oracle % unvisited.length) with
    | none => Except.error "empty choice"
    | some move_index =>
      let new_node_id := first_child_id + move_index
      let move := t.moves new_node_id
      let bs := compute_boards t node_id move
      let t' := { t with
        opponent_boards := upd t.opponent_boards new_node_id bs.1
        player_boards := upd t.player_boards new_node_id bs.2 }
      Except.ok (t', new_node_id)
  else
    let empty_squares :=
      (t.player_boards node_id ||| t.opponent_boards node_id) ^^^ U64MASK
    let possible_moves_bb :=
      possible_moves (t.player_boards node_id) (t.opponent_boards node_id)
        empty_squares
    let moves0 := get_moves_index possible_moves_bb
    let moves := if moves0.length = 0 then [(-1 : Int)] else moves0
    let nb_moves := moves.length
    if t.nodes_count + nb_moves > MAX_NODES then
      Except.error "The tree reached the maximum number of nodes authorized"
    else
      let first_child_id := t.nodes_count
      let t1 := { t with
        nodes_count := t.nodes_count + nb_moves
        first_child := upd t.first_child node_id first_child_id
        num_children := upd t.num_children node_id nb_moves }
      let t2 := (List.range nb_moves).foldl
        (fun tr i =>
          { tr with
            moves := upd tr.moves (first_child_id + i) (moves.getD i (-1))
            parent := upd tr.parent (first_child_id + i) node_id
            first_child := upd tr.first_child (first_child_id + i) (-1)
            num_children := upd tr.num_children (first_child_id + i) (-1)
            num_visits := upd tr.num_visits (first_child_id + i) 0
            reward := upd tr.reward (first_child_id + i) 0 })
        t1
      let move_index := oracle % nb_moves
      let move := moves.getD move_index (-1)
      let new_node_id := first_child_id + move_index
      let bs := compute_boards t2 node_id move
      let t3 := { t2 with
        opponent_boards := upd t2.opponent_boards new_node_id bs.1
        player_boards := upd t2.player_boards new_node_id bs.2 }
      Except.ok (t3, new_node_id)

/-- The `while node_id != -1` loop of `backup` from `search_tree.py`,
fuel-bounded. -/
def backup (t : Tree) : Nat → Int → Int → Tree
  | 0, _, _ => t
  | fuel + 1, node_id, reward =>
    if node_id = -1 then t
    else
      let n := node_id.toNat
      let t1 := { t with num_visits := upd t.num_visits n (t.num_visits n + 1) }
      let t2 := if reward = 1 then
          { t1 with reward := upd t1.reward n (t1.reward n + reward) }
        else t1
      backup t2 fuel (-reward) (t2.parent n)

/-- `parent_skiped` from `search_tree.py`. -/
def parent_skiped (t : Tree) (node_id : Nat) : Bool :=
  let parent_id := t.parent node_id
  if parent_id = -1 then false
  else
    decide ((t.player_boards node_id ||| t.opponent_boards node_id) =
      (t.player_boards parent_id.toNat ||| t.opponent_boards parent_id.toNat))

/-- `is_terminal` from `search_tree.py`. -/
def is_terminal (t : Tree) (node_id : Nat) : Bool :=
  decide (t.num_children node_id = 0) && parent_skiped t node_id

/-- The mutating operations `search`/`tree_policy` compose: every tree state
the module produces is reachable from the constructor through `define_root`,
`expand` and `backup` (selection and rollouts do not write to the tree). -/
inductive Reachable : Tree → Prop
  | ctor : Reachable search_tree_ctor
  | root (t : Tree) (pb ob : Nat) : Reachable t →
      Reachable (define_root t pb ob).1
  | grow (t t' : Tree) (node_id oracle : Nat) (new_id : Nat) : Reachable t →
      expand t node_id oracle = Except.ok (t', new_id) → Reachable t'
  | walk (t : Tree) (fuel : Nat) (node_id reward : Int) : Reachable t →
      Reachable (backup t fuel node_id reward)

end SearchTree

/-! ### `agents/mcts.py`: the configuration dispatch of `MCTSAgent.search`.
The constructor stores `nb_iterations` and `time_limit` without validation;
`search` runs the iteration loop whenever `nb_iterations is not None` and
only otherwise checks `time_limit`, raising when both are `None`. -/

namespace AgentsMcts

/-- Which search `MCTSAgent.search` performs. -/
inductive SearchMode
  | iterations (n : Int)
  | timed (t : Int)
  deriving Repr, DecidableEq

/-- The dispatch at the top of `MCTSAgent.search` in `agents/mcts.py`:
`if self.nb_iterations is not None: <iteration loop> else: if self.time_limit
is None: raise ...; <timed loop>`. -/
def searchDispatch (nb_iterations time_limit : Option Int) :
    Except String SearchMode :=
  match nb_iterations with
  | some n => Except.ok (SearchMode.iterations n)
  | none =>
    match time_limit with
    | none => Except.error "You must either specify the number of iteration of a time limit"
    | some t => Except.ok (SearchMode.timed t)

end AgentsMcts

/-! ### Spec-side definitions used to state the claims. -/

/-- The claim's description of a legal ray (spec §4.1): starting from
`(row, col)` in direction `(dr, dc)` there are `k ≥ 1` contiguous opponent
disks on the board followed by an on-board disk of the moving side. -/
def specRay (pb ob : Nat) (row col dr dc : Int) : Prop :=
  ∃ k : Nat, 1 ≤ k ∧
    (∀ j : Nat, 1 ≤ j → j ≤ k →
      inRange (row + j * dr) (col + j * dc) = true ∧
      ob.testBit (idx (row + j * dr) (col + j * dc)) = true) ∧
    inRange (row + (k + 1 : Nat) * dr) (col + (k + 1 : Nat) * dc) = true ∧
    pb.testBit (idx (row + (k + 1 : Nat) * dr) (col + (k + 1 : Nat) * dc)) = true

/-- The claim's legality condition for a square: empty, and some one of the
8 ray directions brackets. -/
def specLegal (board : Bitboard) (player : Nat) (r c : Nat) : Prop :=
  (board.1 ||| board.2).testBit (8 * r + c) = false ∧
  ∃ d < 8, specRay (BitboardUtils.get_player_board board player).1
    (BitboardUtils.get_player_board board player).2
    (r : Int) (c : Int) (DIRECTIONS d).1 (DIRECTIONS d).2

/-- `board.1` and `board.2` hold no common square. -/
def Disjoint64 (board : Bitboard) : Prop := board.1 &&& board.2 = 0

/-- Both bitboards fit in 64 bits. -/
def Fits64 (board : Bitboard) : Prop := board.1 < 2 ^ 64 ∧ board.2 < 2 ^ 64

/-! ### Concrete instances used by counterexamples and witnesses. -/

/-- The standard 4-disk opening position (player 1 on d5/e4). -/
def openingBoard : Bitboard := (2 ^ 28 + 2 ^ 35, 2 ^ 27 + 2 ^ 36)

/-- An injective Zobrist table: occupant `p` of cell `(x, y)` contributes
`p` shifted into a private 2-bit field, so the hash determines the board
(but, as in the source, not the side to move). -/
def tableInj : ZTable := fun x y p =>
  (if p = 1 then 1 else if p = 2 then 2 else 3) <<< (2 * (8 * x + y).toNat)

/-- A concrete `MinimaxPlayer` configuration: the selectable
`static_weights` heuristic, the injective table, the identity shuffle
outcome, player 1. -/
def cfgC : Minmax.MinimaxCfg where
  heuristic := Heuristics.static_weights_heuristic
  table := tableInj
  shuffle := fun l => l
  id := 1

/-- Array board for the C3 counterexample: player 1 on (3,5) and (7,0),
player 2 on (3,4) and (7,1), player 1 to move. -/
def boardC3 : Board2D :=
  [[0, 0, 0, 0, 0, 0, 0, 0],
   [0, 0, 0, 0, 0, 0, 0, 0],
   [0, 0, 0, 0, 0, 0, 0, 0],
   [0, 0, 0, 0, 2, 1, 0, 0],
   [0, 0, 0, 0, 0, 0, 0, 0],
   [0, 0, 0, 0, 0, 0, 0, 0],
   [0, 0, 0, 0, 0, 0, 0, 0],
   [1, 2, 0, 0, 0, 0, 0, 0]]

/-- Array board for the C4 counterexample: player 1 on (7,0), player 2 on
(7,1); player 1's one legal move is (7,2). -/
def boardC4 : Board2D :=
  [[0, 0, 0, 0, 0, 0, 0, 0],
   [0, 0, 0, 0, 0, 0, 0, 0],
   [0, 0, 0, 0, 0, 0, 0, 0],
   [0, 0, 0, 0, 0, 0, 0, 0],
   [0, 0, 0, 0, 0, 0, 0, 0],
   [0, 0, 0, 0, 0, 0, 0, 0],
   [0, 0, 0, 0, 0, 0, 0, 0],
   [1, 2, 0, 0, 0, 0, 0, 0]]

/-- The all-zero 8×8 array board. -/
def emptyBoard2D : Board2D := List.replicate 8 (List.replicate 8 (0 : Int))

/-- The local variables of the body of `flip_tiles` in
`utils/bitboard_utils.py`.  The parameter binding `board` is a field so that
the embedding can express that the body never reassigns it (the board is a
tuple of immutable `uint64` values). -/
structure FlipLocals where
  board : Bitboard
  player_board : Nat
  opponent_board : Nat

/-- The body of `flip_tiles` from `utils/bitboard_utils.py`, threaded
statement by statement through its local-variable frame: the unpacking
assignments, `get_player_board`, the move-bit `|=`, and the direction loop
only ever rebind `player_board` and `opponent_board`; no statement assigns
to `board`.  Returns the final frame together with the returned tuple. -/
def flip_tiles_run (move : Int × Int) (player : Nat) (s0 : FlipLocals) :
    FlipLocals × Bitboard :=
  let s1 := { s0 with player_board := s0.board.1, opponent_board := s0.board.2 }
  let s2 := { s1 with
    player_board := (BitboardUtils.get_player_board s1.board player).1
    opponent_board := (BitboardUtils.get_player_board s1.board player).2 }
  let s3 := { s2 with
    player_board := s2.player_board ||| (1 <<< idx move.1 move.2) }
  let s4 := (List.range 8).foldl
    (fun s direction =>
      if BitboardUtils.check_line move.1 move.2 direction player s.board then
        let d := DIRECTIONS direction
        let po := BitboardUtils.flipRay d.1 d.2 8 (move.1 + d.1) (move.2 + d.2)
          (s.player_board, s.opponent_board)
        { s with player_board := po.1, opponent_board := po.2 }
      else s)
    s3
  (s4, if player = 1 then (s4.player_board, s4.opponent_board)
    else (s4.opponent_board, s4.player_board))

/-- C7 counterexample, step 1: a root whose position is completely full
(side to move has every disk), so neither side has a legal move. -/
def treeC7root : SearchTree.Tree :=
  (SearchTree.define_root SearchTree.search_tree_ctor U64MASK 0).1

/-- C7 counterexample, step 2: expanding the root materializes the synthetic
pass child (node 1). -/
def treeC7 : SearchTree.Tree :=
  ((SearchTree.expand treeC7root 0 0).toOption.map Prod.fst).getD
    SearchTree.search_tree_ctor

/-- A transposition table holding one stored UPPER entry for `boardC4`
(value 2, depth 5), as a deeper earlier search would have left it. -/
def ttSeedC4 : Minmax.TT :=
  [(compute_zobrist_hash boardC4 cfgC.table,
    ⟨2, 5, Minmax.UPPERBOUND, (-1, -1)⟩)]

/-- An 8×8 array board: 8 rows of 8 cells each (the `int16[:, :]` shape the
array code is compiled for). -/
def Shape2D (board : Board2D) : Prop :=
  board.length = 8 ∧ ∀ row ∈ board, row.length = 8

/-- The claim's ray condition on the array board: starting from `(row, col)`
in direction `(dr, dc)` there are `k ≥ 1` contiguous on-board cells holding
the opponent's id `3 - player`, followed by an on-board cell holding
`player`. -/
def specRay2D (board : Board2D) (player : Int) (row col dr dc : Int) : Prop :=
  ∃ k : Nat, 1 ≤ k ∧
    (∀ j : Nat, 1 ≤ j → j ≤ k →
      inRange (row + (j : Int) * dr) (col + (j : Int) * dc) = true ∧
      cell board (row + (j : Int) * dr) (col + (j : Int) * dc) = 3 - player) ∧
    inRange (row + ((k + 1 : Nat) : Int) * dr)
      (col + ((k + 1 : Nat) : Int) * dc) = true ∧
    cell board (row + ((k + 1 : Nat) : Int) * dr)
      (col + ((k + 1 : Nat) : Int) * dc) = player

/-- The claim's legality condition on the array board: free square, and some
one of the 8 ray directions brackets. -/
def specLegal2D (board : Board2D) (player : Int) (r c : Nat) : Prop :=
  cell board (r : Int) (c : Int) = 0 ∧
  ∃ d < 8, specRay2D board player (r : Int) (c : Int)
    (DIRECTIONS d).1 (DIRECTIONS d).2

/-- The standard 4-disk opening position as an array board. -/
def openingBoard2D : Board2D :=
  [[0, 0, 0, 0, 0, 0, 0, 0], [0, 0, 0, 0, 0, 0, 0, 0],
   [0, 0, 0, 0, 0, 0, 0, 0], [0, 0, 0, 2, 1, 0, 0, 0],
   [0, 0, 0, 1, 2, 0, 0, 0], [0, 0, 0, 0, 0, 0, 0, 0],
   [0, 0, 0, 0, 0, 0, 0, 0], [0, 0, 0, 0, 0, 0, 0, 0]]

/-!
## Theorems

Helper lemmas come first, then one theorem per claim (with its witness or
counterexample where required).
-/

/-- C8: the claim reads "The disk-parity evaluator returns
`100 * (own - opp) / (own + opp)`, and is defined (returning 0, without
raising) on the input where both disk counts are 0."  The formula part holds,
but the code has no zero guard: at `(0, 0)` it computes `0.0 / 0.0` (a
`ZeroDivisionError` in plain Python, an undefined NaN→int16 cast under
numba), unlike the sibling heuristics in `heuristics.py`, which all guard
their denominators with an explicit `... != 0` test returning 0.  The spec is
the evident intent; the code omits the guard. -/
theorem C8_disk_parity_zero_unguarded :
    Heuristics.disk_parity_heuristic 0 0 = none ∧
    Heuristics.disk_parity_heuristic_standalone emptyBoard2D 1 = none ∧
    Heuristics.disk_parity_heuristic 40 24 = some 25 ∧
    Heuristics.disk_parity_heuristic 1 3 = some (-50) := by
  refine ⟨rfl, ?_, by decide, by decide⟩
  decide

/-- C9 counterexample: the claim says an MCTS agent with *both* an iteration
count and a time budget set is surfaced as a configuration error; in
`agents/mcts.py` the `search` dispatch silently runs the iteration search
instead. -/
theorem C9_counterexample_both_set :
    AgentsMcts.searchDispatch (some 100) (some 5) =
      Except.ok (AgentsMcts.SearchMode.iterations 100) := rfl

/-- C9 (amended): `MCTSAgent.search` in `agents/mcts.py` raises exactly when
*neither* the iteration count nor the time budget is set (before any search
work); when both are set, the iteration count silently takes precedence, and
the constructor itself never validates. -/
theorem C9_error_iff_neither_set (nb_iterations time_limit : Option Int) :
    (∃ msg, AgentsMcts.searchDispatch nb_iterations time_limit =
      Except.error msg) ↔ nb_iterations = none ∧ time_limit = none := by
  cases nb_iterations <;> cases time_limit <;>
    simp [AgentsMcts.searchDispatch]

/-- The direction loop of `flip_tiles_run` leaves the `board` binding
untouched and acts on `(player_board, opponent_board)` exactly as the
pair-valued loop of `flip_tiles` does. -/
theorem flip_tiles_run_foldl (move : Int × Int) (player : Nat)
    (l : List Nat) (s : FlipLocals) :
    (l.foldl
      (fun s direction =>
        if BitboardUtils.check_line move.1 move.2 direction player s.board then
          let d := DIRECTIONS direction
          let po := BitboardUtils.flipRay d.1 d.2 8 (move.1 + d.1) (move.2 + d.2)
            (s.player_board, s.opponent_board)
          { s with player_board := po.1, opponent_board := po.2 }
        else s)
      s).board = s.board ∧
    ((l.foldl
      (fun s direction =>
        if BitboardUtils.check_line move.1 move.2 direction player s.board then
          let d := DIRECTIONS direction
          let po := BitboardUtils.flipRay d.1 d.2 8 (move.1 + d.1) (move.2 + d.2)
            (s.player_board, s.opponent_board)
          { s with player_board := po.1, opponent_board := po.2 }
        else s)
      s).player_board,
     (l.foldl
      (fun s direction =>
        if BitboardUtils.check_line move.1 move.2 direction player s.board then
          let d := DIRECTIONS direction
          let po := BitboardUtils.flipRay d.1 d.2 8 (move.1 + d.1) (move.2 + d.2)
            (s.player_board, s.opponent_board)
          { s with player_board := po.1, opponent_board := po.2 }
        else s)
      s).opponent_board) =
    l.foldl
      (fun po direction =>
        if BitboardUtils.check_line move.1 move.2 direction player s.board then
          let d := DIRECTIONS direction
          BitboardUtils.flipRay d.1 d.2 8 (move.1 + d.1) (move.2 + d.2) po
        else po)
      (s.player_board, s.opponent_board) := by
  induction l generalizing s with
  | nil => exact ⟨rfl, rfl⟩
  | cons d ds ih =>
    by_cases h : BitboardUtils.check_line move.1 move.2 d player s.board
    · simpa [h] using ih _
    · simpa [h] using ih s

/-- C5: `flip_tiles` (`utils/bitboard_utils.py`) never mutates the input
board.  Run statement by statement on its local frame, the body leaves the
`board` binding equal to the value passed in (no statement assigns to it —
the board is a tuple of immutable `uint64` values), and the returned board is
the freshly assembled pair `flip_tiles move player board`. -/
theorem C5_flip_tiles_no_mutation (move : Int × Int) (player : Nat)
    (board : Bitboard) (pb0 ob0 : Nat) :
    (flip_tiles_run move player ⟨board, pb0, ob0⟩).1.board = board ∧
    (flip_tiles_run move player ⟨board, pb0, ob0⟩).2 =
      BitboardUtils.flip_tiles move player board := by
  have h := flip_tiles_run_foldl move player (List.range 8)
    ⟨board, (BitboardUtils.get_player_board board player).1 |||
      (1 <<< idx move.1 move.2),
     (BitboardUtils.get_player_board board player).2⟩
  constructor
  · exact h.1
  · show _ = BitboardUtils.flip_tiles move player board
    rw [BitboardUtils.flip_tiles]
    rcases h with ⟨-, h2⟩
    simp only [flip_tiles_run]
    rw [← h2]

/-- C3 counterexample: on `boardC3` (player 1 to move) at depth 2 with
initial guess 0, `mtdf` converges to 3 while the single full-window negamax
call returns 5.  The transposition table is keyed by the Zobrist hash of the
board alone (side to move is not hashed): the child reached by (3,3) is a
position where player 2 must pass, the pass recursion at the same depth
stores player 1's value for that board, and the next MTD(f) probe reads that
entry back as if it were player 2's value. -/
theorem C3_counterexample_mtdf_ne_negamax :
    (Minmax.mtdf cfgC boardC3 0 2 [] 10).map (fun r => r.1) = some 3 ∧
    (Minmax.negamax cfgC boardC3 2 (-32767) 32767 1 []).1 = 5 := by
  constructor <;> decide

end Othello

namespace Othello

/-- C4 counterexample, against two parts of the claim.  (a) Not every search
node overwrites its table entry on exit: a depth-0 call returns the heuristic
and leaves the table untouched.  (b) The EXACT/LOWER/UPPER tag is computed
against the *probe-tightened* beta, not the original window: seeding an UPPER
entry (value 2, depth 5) for `boardC4` tightens beta to 2, so the final value
3 — strictly inside the original window (-32767, 32767), which the claim says
is tagged EXACT — is stored tagged LOWER. -/
theorem C4_counterexample_store_discipline :
    (Minmax.negamax cfgC boardC4 0 (-32767) 32767 1 []).2.2 = [] ∧
    Minmax.ttLookup
      (Minmax.negamax cfgC boardC4 1 (-32767) 32767 1 ttSeedC4).2.2
      (compute_zobrist_hash boardC4 cfgC.table) =
      some ⟨3, 1, Minmax.LOWERBOUND, (7, 2)⟩ ∧
    (-32767 : Int) < 3 ∧ (3 : Int) < 32767 := by
  refine ⟨by decide, by decide, by decide, by decide⟩

/-- C4 (amended): the transposition-table discipline of `negamax`
(`minmax.py`).  On entry, a stored entry with `depth ≥` the requested depth
short-circuits on an EXACT tag, or tightens alpha (LOWER) / beta (UPPER) and
short-circuits when the tightened window closes; a shallower entry leaves the
window untouched and contributes only its `best_move` as the ordering hint.
On exit, the entry is (over)written only when the main move loop runs
(`depth ≠ 0` and the side to move has a move and no short-circuit): it then
holds the returned value, depth and move, tagged UPPER if the value is
`≤ alpha_orig`, LOWER if it is `≥` the *current* (possibly probe-tightened)
beta, and EXACT otherwise; depth-0 and game-over exits write nothing. -/
theorem C4_tt_probe_and_store :
    (∀ (cfg : Minmax.MinimaxCfg) (fuel : Nat) (board : Board2D) (depth : Nat)
      (alpha beta color : Int) (tt : Minmax.TT) (e : Minmax.TTEntry),
      Minmax.ttLookup tt (compute_zobrist_hash board cfg.table) = some e →
      e.depth ≥ depth →
      (e.flag = Minmax.EXACT →
        Minmax.negamaxF cfg (fuel + 1) board depth alpha beta color tt =
          (e.value, e.best_move, tt)) ∧
      (e.flag ≠ Minmax.EXACT →
        (if e.flag = Minmax.LOWERBOUND then max alpha e.value else alpha) ≥
            (if e.flag = Minmax.UPPERBOUND then min beta e.value else beta) →
        Minmax.negamaxF cfg (fuel + 1) board depth alpha beta color tt =
          (e.value, e.best_move, tt)) ∧
      (e.flag ≠ Minmax.EXACT →
        (if e.flag = Minmax.LOWERBOUND then max alpha e.value else alpha) <
            (if e.flag = Minmax.UPPERBOUND then min beta e.value else beta) →
        Minmax.negamaxF cfg (fuel + 1) board depth alpha beta color tt =
          Minmax.negamaxMain
            (fun b d a b2 c t => Minmax.negamaxF cfg fuel b d a b2 c t) cfg
            (compute_zobrist_hash board cfg.table) board depth
            (if e.flag = Minmax.LOWERBOUND then max alpha e.value else alpha)
            (if e.flag = Minmax.UPPERBOUND then min beta e.value else beta)
            color alpha e.best_move tt)) ∧
    (∀ (cfg : Minmax.MinimaxCfg) (fuel : Nat) (board : Board2D) (depth : Nat)
      (alpha beta color : Int) (tt : Minmax.TT) (e : Minmax.TTEntry),
      Minmax.ttLookup tt (compute_zobrist_hash board cfg.table) = some e →
      e.depth < depth →
      Minmax.negamaxF cfg (fuel + 1) board depth alpha beta color tt =
        Minmax.negamaxMain
          (fun b d a b2 c t => Minmax.negamaxF cfg fuel b d a b2 c t) cfg
          (compute_zobrist_hash board cfg.table) board depth alpha beta color
          alpha e.best_move tt) ∧
    (∀ (cfg : Minmax.MinimaxCfg) (fuel : Nat) (board : Board2D) (depth : Nat)
      (alpha beta color : Int) (tt : Minmax.TT),
      Minmax.ttLookup tt (compute_zobrist_hash board cfg.table) = none →
      Minmax.negamaxF cfg (fuel + 1) board depth alpha beta color tt =
        Minmax.negamaxMain
          (fun b d a b2 c t => Minmax.negamaxF cfg fuel b d a b2 c t) cfg
          (compute_zobrist_hash board cfg.table) board depth alpha beta color
          alpha (-1, -1) tt) ∧
    (∀ (rec : Board2D → Nat → Int → Int → Int → Minmax.TT →
        Int × (Int × Int) × Minmax.TT)
      (cfg : Minmax.MinimaxCfg) (zhash : Nat) (board : Board2D) (depth : Nat)
      (alpha beta color alpha_orig : Int) (prev : Int × Int) (tt : Minmax.TT),
      ((depth = 0 ∨
          (ArrayUtils.get_possible_moves
            (if color = 1 then cfg.id else 3 - cfg.id) board = [] ∧
           ArrayUtils.get_possible_moves
            (3 - (if color = 1 then cfg.id else 3 - cfg.id)) board = [])) →
        (Minmax.negamaxMain rec cfg zhash board depth alpha beta color
          alpha_orig prev tt).2.2 = tt) ∧
      (depth ≠ 0 →
        ArrayUtils.get_possible_moves
          (if color = 1 then cfg.id else 3 - cfg.id) board ≠ [] →
        Minmax.ttLookup
          (Minmax.negamaxMain rec cfg zhash board depth alpha beta color
            alpha_orig prev tt).2.2 zhash =
        some ⟨(Minmax.negamaxMain rec cfg zhash board depth alpha beta color
            alpha_orig prev tt).1,
          depth,
          (if (Minmax.negamaxMain rec cfg zhash board depth alpha beta color
              alpha_orig prev tt).1 ≤ alpha_orig then Minmax.UPPERBOUND
           else if (Minmax.negamaxMain rec cfg zhash board depth alpha beta
              color alpha_orig prev tt).1 ≥ beta then Minmax.LOWERBOUND
           else Minmax.EXACT),
          (Minmax.negamaxMain rec cfg zhash board depth alpha beta color
            alpha_orig prev tt).2.1⟩)) := by
  refine ⟨?_, ?_, ?_, ?_⟩
  · intro cfg fuel board depth alpha beta color tt e hlook hdepth
    refine ⟨?_, ?_, ?_⟩
    · intro hexact
      simp [Minmax.negamaxF, hlook, hdepth, hexact]
    · intro hne hge
      simp only [Minmax.negamaxF, hlook]
      rw [if_pos hdepth, if_neg hne, if_pos hge]
    · intro hne hlt
      simp only [Minmax.negamaxF, hlook]
      rw [if_pos hdepth, if_neg hne, if_neg (not_le.mpr hlt)]
  · intro cfg fuel board depth alpha beta color tt e hlook hdepth
    simp only [Minmax.negamaxF, hlook]
    rw [if_neg (by omega)]
  · intro cfg fuel board depth alpha beta color tt hlook
    simp [Minmax.negamaxF, hlook]
  · intro rec cfg zhash board depth alpha beta color alpha_orig prev tt
    constructor
    · intro hleaf
      simp only [Minmax.negamaxMain]
      rw [if_pos hleaf]
    · intro hdepth hmoves
      have hnot : ¬(depth = 0 ∨
          (ArrayUtils.get_possible_moves
            (if color = 1 then cfg.id else 3 - cfg.id) board = [] ∧
           ArrayUtils.get_possible_moves
            (3 - (if color = 1 then cfg.id else 3 - cfg.id)) board = [])) := by
        rintro (h | ⟨h1, -⟩)
        · exact hdepth h
        · exact hmoves h1
      simp only [Minmax.negamaxMain]
      rw [if_neg hnot, if_neg hmoves]
      simp [Minmax.ttInsert, Minmax.ttLookup]

end Othello

namespace Othello

/-- Witness for C4: with the stored UPPER entry of `ttSeedC4` (depth 5 ≥ 1)
and window `(10, 32767)`, beta tightens to 2 ≤ alpha and the probe
short-circuits, returning the entry untouched. -/
theorem C4_tt_probe_and_store_witness :
    Minmax.negamaxF cfgC 4 boardC4 1 10 32767 1 ttSeedC4 =
      (2, (-1, -1), ttSeedC4) := by
  have h := C4_tt_probe_and_store.1 cfgC 3 boardC4 1 10 32767 1 ttSeedC4
    ⟨2, 5, Minmax.UPPERBOUND, (-1, -1)⟩ (by decide) (by decide)
  exact h.2.1 (by decide) (by decide)

/-- Termination measure argument for the MTD(f) loop: once the guess equals
one of the two bounds (true from the second iteration on), every iteration
either strictly shrinks `upperBound - lowerBound` or exits. -/
theorem mtdfLoop_terminates_aux (cfg : Minmax.MinimaxCfg) (board : Board2D)
    (depth : Nat) :
    ∀ (M : Nat) (g : Int) (bm : Int × Int) (upper lower : Int)
      (tt : Minmax.TT), (g = lower ∨ g = upper) →
      (upper - lower).toNat ≤ M →
      ∃ fuel r, Minmax.mtdfLoop cfg board depth fuel g bm upper lower tt =
        some r := by
  intro M
  induction M with
  | zero =>
    intro g bm upper lower tt _ hM
    have hle : ¬lower < upper := by omega
    exact ⟨1, (g, bm, tt), by simp [Minmax.mtdfLoop, hle]⟩
  | succ M ih =>
    intro g bm upper lower tt hg hM
    by_cases hlt : lower < upper
    · have hbeta : lower + 1 ≤ max g (lower + 1) := le_max_right _ _
      set r := Minmax.negamax cfg board depth (max g (lower + 1) - 1)
        (max g (lower + 1)) 1 tt with hr
      by_cases hcase : r.1 < max g (lower + 1)
      · have hbound : (r.1 - lower).toNat ≤ M := by
          rcases hg with hg | hg
          · have : max g (lower + 1) = lower + 1 := by
              rw [hg]; exact max_eq_right (by omega)
            omega
          · have : max g (lower + 1) = g := max_eq_left (by omega)
            omega
        obtain ⟨n, r', hrec⟩ := ih r.1 r.2.1 r.1 lower r.2.2 (Or.inr rfl) hbound
        refine ⟨n + 1, r', ?_⟩
        simp only [Minmax.mtdfLoop]
        rw [if_pos hlt, ← hr, if_pos hcase]
        exact hrec
      · have hbound : (upper - r.1).toNat ≤ M := by omega
        obtain ⟨n, r', hrec⟩ := ih r.1 r.2.1 upper r.1 r.2.2 (Or.inl rfl) hbound
        refine ⟨n + 1, r', ?_⟩
        simp only [Minmax.mtdfLoop]
        rw [if_pos hlt, ← hr, if_neg hcase]
        exact hrec
    · exact ⟨1, (g, bm, tt), by simp [Minmax.mtdfLoop, hlt]⟩

/-- C3 (amended): for every configuration, board, initial guess and depth,
the `mtdf` loop terminates (the fuelled loop succeeds for some fuel).  The
rest of the original claim — that the converged value equals the one
full-window `negamax` value — fails on the code
(`C3_counterexample_mtdf_ne_negamax`): the table key ignores the side to
move, so a same-depth pass recursion poisons the entry its own node then
reads back on the next probe. -/
theorem C3_mtdf_terminates (cfg : Minmax.MinimaxCfg) (board : Board2D)
    (f : Int) (depth : Nat) (tt : Minmax.TT) :
    ∃ fuel r, Minmax.mtdf cfg board f depth tt fuel = some r := by
  have hlt : Minmax.INT16_NEGINF < Minmax.INT16_POSINF := by decide
  set r := Minmax.negamax cfg board depth
    (max f (Minmax.INT16_NEGINF + 1) - 1) (max f (Minmax.INT16_NEGINF + 1)) 1
    tt with hr
  by_cases hcase : r.1 < max f (Minmax.INT16_NEGINF + 1)
  · obtain ⟨n, r', hrec⟩ := mtdfLoop_terminates_aux cfg board depth
      (r.1 - Minmax.INT16_NEGINF).toNat r.1 r.2.1 r.1 Minmax.INT16_NEGINF
      r.2.2 (Or.inr rfl) le_rfl
    refine ⟨n + 1, r', ?_⟩
    simp only [Minmax.mtdf, Minmax.mtdfLoop]
    rw [if_pos hlt, ← hr, if_pos hcase]
    exact hrec
  · obtain ⟨n, r', hrec⟩ := mtdfLoop_terminates_aux cfg board depth
      (Minmax.INT16_POSINF - r.1).toNat r.1 r.2.1 Minmax.INT16_POSINF r.1
      r.2.2 (Or.inl rfl) le_rfl
    refine ⟨n + 1, r', ?_⟩
    simp only [Minmax.mtdf, Minmax.mtdfLoop]
    rw [if_pos hlt, ← hr, if_neg hcase]
    exact hrec

end Othello

namespace Othello

/-- `expand` preserves "no node has child count 0": the expanded node gets
`nb_moves ≥ 1` children (a synthetic pass child when there is no legal move)
and freshly created children get child count -1. -/
theorem expand_num_children_ne_zero (t t' : SearchTree.Tree)
    (node_id oracle new_id : Nat)
    (hexp : SearchTree.expand t node_id oracle = Except.ok (t', new_id))
    (hinv : ∀ i, t.num_children i ≠ 0) : ∀ i, t'.num_children i ≠ 0 := by
  classical
  unfold SearchTree.expand at hexp
  by_cases hfc : t.first_child node_id ≠ -1
  · rw [if_pos hfc] at hexp
    rcases hm : ((List.range (t.num_children node_id).toNat).filter
        (fun i => t.num_visits ((t.first_child node_id).toNat + i) = 0)).get?
        (oracle % ((List.range (t.num_children node_id).toNat).filter
          (fun i => t.num_visits ((t.first_child node_id).toNat + i) = 0)).length)
      with _ | mi
    · simp only [hm] at hexp
      exact absurd hexp (by simp)
    · simp only [hm, Except.ok.injEq, Prod.mk.injEq] at hexp
      rcases hexp with ⟨ht', -⟩
      intro i
      rw [← ht']
      exact hinv i
  · rw [if_neg hfc] at hexp
    by_cases hmax : t.nodes_count +
        (if (SearchTree.get_moves_index (SearchTree.possible_moves
            (t.player_boards node_id) (t.opponent_boards node_id)
            ((t.player_boards node_id ||| t.opponent_boards node_id) ^^^
              U64MASK))).length = 0 then [(-1 : Int)]
          else SearchTree.get_moves_index (SearchTree.possible_moves
            (t.player_boards node_id) (t.opponent_boards node_id)
            ((t.player_boards node_id ||| t.opponent_boards node_id) ^^^
              U64MASK))).length > SearchTree.MAX_NODES
    · rw [if_pos hmax] at hexp; exact absurd hexp (by simp)
    · rw [if_neg hmax] at hexp
      simp only [Except.ok.injEq, Prod.mk.injEq] at hexp
      rcases hexp with ⟨ht', -⟩
      set moves := (if (SearchTree.get_moves_index (SearchTree.possible_moves
          (t.player_boards node_id) (t.opponent_boards node_id)
          ((t.player_boards node_id ||| t.opponent_boards node_id) ^^^
            U64MASK))).length = 0 then [(-1 : Int)]
        else SearchTree.get_moves_index (SearchTree.possible_moves
          (t.player_boards node_id) (t.opponent_boards node_id)
          ((t.player_boards node_id ||| t.opponent_boards node_id) ^^^
            U64MASK))) with hmoves
      have hlen : moves.length ≠ 0 := by
        rw [hmoves]
        split
        · simp
        · assumption
      have hinv1 : ∀ i, (SearchTree.upd t.num_children node_id
          (moves.length : Int)) i ≠ 0 := by
        intro i
        unfold SearchTree.upd
        split
        · exact_mod_cast hlen
        · exact hinv i
      have hfold : ∀ (l : List Nat) (tr : SearchTree.Tree),
          (∀ i, tr.num_children i ≠ 0) →
          ∀ i, (l.foldl (fun tr i =>
            { tr with
              moves := SearchTree.upd tr.moves (t.nodes_count + i)
                (moves.getD i (-1))
              parent := SearchTree.upd tr.parent (t.nodes_count + i) node_id
              first_child := SearchTree.upd tr.first_child
                (t.nodes_count + i) (-1)
              num_children := SearchTree.upd tr.num_children
                (t.nodes_count + i) (-1)
              num_visits := SearchTree.upd tr.num_visits (t.nodes_count + i) 0
              reward := SearchTree.upd tr.reward (t.nodes_count + i) 0 }) tr).num_children i ≠ 0 := by
        intro l
        induction l with
        | nil => intro tr h i; exact h i
        | cons a l ihl =>
          intro tr h i
          refine ihl _ ?_ i
          intro j
          simp only [SearchTree.upd]
          split
          · simp
          · exact h j
      intro i
      rw [← ht']
      exact hfold (List.range moves.length) _ hinv1 i

/-- `backup` never writes `num_children`. -/
theorem backup_num_children (t : SearchTree.Tree) :
    ∀ (fuel : Nat) (node_id reward : Int),
    (SearchTree.backup t fuel node_id reward).num_children = t.num_children := by
  intro fuel
  induction fuel generalizing t with
  | zero => intro _ _; rfl
  | succ fuel ih =>
    intro node_id reward
    show (SearchTree.backup t (fuel + 1) node_id reward).num_children = _
    rw [SearchTree.backup]
    split
    · rfl
    · split <;> exact (ih _ _ _ : _)

/-- Every reachable tree state has no node with child count 0. -/
theorem reachable_num_children_ne_zero (t : SearchTree.Tree)
    (h : SearchTree.Reachable t) : ∀ i, t.num_children i ≠ 0 := by
  induction h with
  | ctor => intro i; simp [SearchTree.search_tree_ctor]
  | root t pb ob _ ih =>
    intro i
    simp only [SearchTree.define_root, SearchTree.reset, SearchTree.upd]
    split
    · simp
    · exact ih i
  | grow t t' node_id oracle new_id _ hexp ih =>
    exact expand_num_children_ne_zero t t' node_id oracle new_id hexp ih
  | walk t fuel node_id reward _ ih =>
    intro i
    rw [backup_num_children]
    exact ih i

/-- C7 (amended): `is_terminal` tests `num_children == 0 and parent_skiped`,
but expansion always materializes at least one child (a synthetic pass child
when there is no legal move) and unexpanded nodes carry child count -1, so
`is_terminal` holds for *no* node of *any* reachable tree — in particular a
node with zero legal moves is never terminal, whether its parent transition
was a pass or a real move. -/
theorem C7_is_terminal_never_holds (t : SearchTree.Tree)
    (h : SearchTree.Reachable t) (node_id : Nat) :
    SearchTree.is_terminal t node_id = false := by
  unfold SearchTree.is_terminal
  have := reachable_num_children_ne_zero t h node_id
  simp [this]

/-- C7 counterexample: a reachable tree (root = a completely full position,
expanded once into its synthetic pass child, node 1) in which node 1 has no
legal moves and its parent transition was a pass — the claim's condition for
terminality — yet `is_terminal` is false (node 1's child count is -1). -/
theorem C7_counterexample_pass_node_not_terminal :
    SearchTree.expand treeC7root 0 0 = Except.ok (treeC7, 1) ∧
    SearchTree.get_moves_index (SearchTree.possible_moves
      (treeC7.player_boards 1) (treeC7.opponent_boards 1)
      ((treeC7.player_boards 1 ||| treeC7.opponent_boards 1) ^^^ U64MASK)) =
      [] ∧
    SearchTree.parent_skiped treeC7 1 = true ∧
    SearchTree.is_terminal treeC7 1 = false := by
  refine ⟨rfl, by decide, by decide, by decide⟩

/-- Witness for C7: the never-terminal theorem applied to the concrete
reachable tree `treeC7` at its pass node. -/
theorem C7_is_terminal_never_holds_witness :
    SearchTree.is_terminal treeC7 1 = false := by
  have hroot : SearchTree.Reachable treeC7root :=
    SearchTree.Reachable.root SearchTree.search_tree_ctor U64MASK 0
      SearchTree.Reachable.ctor
  have hexp : SearchTree.expand treeC7root 0 0 = Except.ok (treeC7, 1) := rfl
  exact C7_is_terminal_never_holds treeC7
    (SearchTree.Reachable.grow treeC7root treeC7 0 0 1 hroot hexp) 1

end Othello

namespace Othello

theorem idx_lt_64 {r c : Int} (h : inRange r c = true) : idx r c < 64 := by
  simp only [inRange, Bool.and_eq_true, decide_eq_true_eq] at h
  unfold idx
  omega

theorem idx_coe (r c : Nat) (hr : r < 8) (hc : c < 8) :
    idx (r : Int) (c : Int) = 8 * r + c := by
  unfold idx
  omega

theorem testBit_one_shl (b i : Nat) : ((1 <<< b : Nat)).testBit i = decide (b = i) := by
  rw [Nat.shiftLeft_eq, one_mul]
  by_cases h : b = i
  · subst h; simp [Nat.testBit_two_pow_self]
  · simp [Nat.testBit_two_pow_of_ne h, h]

theorem testBit_U64MASK (i : Nat) : U64MASK.testBit i = decide (i < 64) := by
  have h : U64MASK = 2 ^ 64 - 1 := by norm_num [U64MASK]
  rw [h, Nat.testBit_two_pow_sub_one]

theorem testBit_mask_lo56 (i : Nat) :
    (0x00FFFFFFFFFFFFFF : Nat).testBit i = decide (i < 56) := by
  have h : (0x00FFFFFFFFFFFFFF : Nat) = 2 ^ 56 - 1 := by norm_num
  rw [h, Nat.testBit_two_pow_sub_one]

theorem testBit_mask_hi56 (i : Nat) :
    (0xFFFFFFFFFFFFFF00 : Nat).testBit i = (decide (8 ≤ i) && decide (i < 64)) := by
  have h : (0xFFFFFFFFFFFFFF00 : Nat) = (2 ^ 56 - 1) <<< 8 := by decide
  rw [h, Nat.testBit_shiftLeft, Nat.testBit_two_pow_sub_one]
  by_cases h8 : 8 ≤ i
  · have e1 : decide (i ≥ 8) = true := decide_eq_true h8
    rw [e1, Bool.true_and, Bool.true_and, decide_eq_decide]
    omega
  · have e1 : decide (i ≥ 8) = false := decide_eq_false h8
    rw [e1, Bool.false_and, Bool.false_and]

theorem testBit_maskFE (i : Nat) :
    (0xFEFEFEFEFEFEFEFE : Nat).testBit i =
      (decide (i < 64) && decide (i % 8 ≠ 0)) := by
  rcases Nat.lt_or_ge i 64 with h | h
  · interval_cases i <;> decide
  · have hlt : (0xFEFEFEFEFEFEFEFE : Nat) < 2 ^ i := by
      calc (0xFEFEFEFEFEFEFEFE : Nat) < 2 ^ 64 := by norm_num
      _ ≤ 2 ^ i := Nat.pow_le_pow_right (by norm_num) h
    have h64 : ¬i < 64 := by omega
    simp [Nat.testBit_lt_two_pow hlt, h64]

theorem testBit_mask7F (i : Nat) :
    (0x7F7F7F7F7F7F7F7F : Nat).testBit i =
      (decide (i < 64) && decide (i % 8 ≠ 7)) := by
  rcases Nat.lt_or_ge i 64 with h | h
  · interval_cases i <;> decide
  · have hlt : (0x7F7F7F7F7F7F7F7F : Nat) < 2 ^ i := by
      calc (0x7F7F7F7F7F7F7F7F : Nat) < 2 ^ 64 := by norm_num
      _ ≤ 2 ^ i := Nat.pow_le_pow_right (by norm_num) h
    have h64 : ¬i < 64 := by omega
    simp [Nat.testBit_lt_two_pow hlt, h64]

namespace BitboardUtils

theorem shift_n_bit (m : Nat) (i : Nat) (h56 : i < 56)
    (hm : m.testBit (8 + i) = true) : (shift_n m).testBit i = true := by
  simp only [shift_n, Nat.testBit_and, Nat.testBit_shiftRight, testBit_mask_lo56,
    Bool.and_eq_true, decide_eq_true_eq]
  exact ⟨hm, h56⟩

theorem shift_s_bit (m : Nat) (i : Nat) (h8 : 8 ≤ i) (h64 : i < 64)
    (hm : m.testBit (i - 8) = true) : (shift_s m).testBit i = true := by
  simp only [shift_s, Nat.testBit_and, Nat.testBit_shiftLeft, testBit_mask_hi56,
    Bool.and_eq_true, decide_eq_true_eq, ge_iff_le]
  exact ⟨⟨h8, hm⟩, h8, h64⟩

theorem shift_e_bit (m : Nat) (i : Nat) (h64 : i < 64) (hmod : i % 8 ≠ 0)
    (hm : m.testBit (i - 1) = true) : (shift_e m).testBit i = true := by
  simp only [shift_e, Nat.testBit_and, Nat.testBit_shiftLeft, testBit_maskFE,
    Bool.and_eq_true, decide_eq_true_eq, ge_iff_le]
  exact ⟨⟨by omega, hm⟩, h64, hmod⟩

theorem shift_o_bit (m : Nat) (i : Nat) (h64 : i < 64) (hmod : i % 8 ≠ 7)
    (hm : m.testBit (1 + i) = true) : (shift_o m).testBit i = true := by
  simp only [shift_o, Nat.testBit_and, Nat.testBit_shiftRight, testBit_mask7F,
    Bool.and_eq_true, decide_eq_true_eq]
  exact ⟨hm, h64, hmod⟩

theorem shift_ne_bit (m : Nat) (i : Nat) (h56 : i < 56) (hmod : i % 8 ≠ 0)
    (hm : m.testBit (7 + i) = true) : (shift_ne m).testBit i = true := by
  simp only [shift_ne, Nat.testBit_and, Nat.testBit_shiftRight, testBit_maskFE,
    testBit_mask_lo56, Bool.and_eq_true, decide_eq_true_eq]
  exact ⟨⟨hm, by omega, hmod⟩, h56⟩

theorem shift_no_bit (m : Nat) (i : Nat) (h56 : i < 56) (hmod : i % 8 ≠ 7)
    (hm : m.testBit (9 + i) = true) : (shift_no m).testBit i = true := by
  simp only [shift_no, Nat.testBit_and, Nat.testBit_shiftRight, testBit_mask7F,
    testBit_mask_lo56, Bool.and_eq_true, decide_eq_true_eq]
  exact ⟨⟨hm, by omega, hmod⟩, h56⟩

theorem shift_se_bit (m : Nat) (i : Nat) (h9 : 9 ≤ i) (h64 : i < 64)
    (hmod : i % 8 ≠ 0) (hm : m.testBit (i - 9) = true) :
    (shift_se m).testBit i = true := by
  simp only [shift_se, Nat.testBit_and, Nat.testBit_shiftLeft, testBit_maskFE,
    testBit_mask_hi56, Bool.and_eq_true, decide_eq_true_eq, ge_iff_le]
  exact ⟨⟨⟨h9, hm⟩, by omega, hmod⟩, by omega, h64⟩

theorem shift_so_bit (m : Nat) (i : Nat) (h8 : 8 ≤ i) (h64 : i < 64)
    (hmod : i % 8 ≠ 7) (hm : m.testBit (i - 7) = true) :
    (shift_so m).testBit i = true := by
  simp only [shift_so, Nat.testBit_and, Nat.testBit_shiftLeft, testBit_mask7F,
    testBit_mask_hi56, Bool.and_eq_true, decide_eq_true_eq, ge_iff_le]
  exact ⟨⟨⟨by omega, hm⟩, by omega, hmod⟩, h8, h64⟩

end BitboardUtils

end Othello

namespace Othello

namespace BitboardUtils

/-- If the neighbor of in-board cell `(r, c)` in direction `d` is on the
board and set in `m`, then the 8-direction dilation of `m` covers `(r, c)`. -/
theorem dilation_testBit_of_neighbor (m : Nat) (r c : Nat) (hr : r < 8)
    (hc : c < 8) (d : Nat) (hd : d < 8)
    (hin : inRange ((r : Int) + (DIRECTIONS d).1) ((c : Int) + (DIRECTIONS d).2) = true)
    (hbit : m.testBit (idx ((r : Int) + (DIRECTIONS d).1)
      ((c : Int) + (DIRECTIONS d).2)) = true) :
    (shift_n m ||| shift_s m ||| shift_e m ||| shift_o m ||| shift_ne m |||
      shift_no m ||| shift_se m ||| shift_so m).testBit (8 * r + c) = true := by
  simp only [Nat.testBit_or, Bool.or_eq_true]
  interval_cases d <;>
    simp only [DIRECTIONS] at hin hbit <;>
    simp only [inRange, Bool.and_eq_true, decide_eq_true_eq] at hin
  · -- north neighbor (r-1, c): shift_s brings it south onto (r, c)
    have hidx : idx ((r : Int) + -1) (c : Int) = 8 * r + c - 8 := by
      unfold idx; omega
    refine Or.inl (Or.inl (Or.inl (Or.inl (Or.inl (Or.inl (Or.inr ?_))))))
    exact shift_s_bit m _ (by omega) (by omega) (hidx ▸ hbit)
  · -- northeast neighbor (r-1, c+1): shift_so
    have hidx : idx ((r : Int) + -1) ((c : Int) + 1) = 8 * r + c - 7 := by
      unfold idx; omega
    refine Or.inr ?_
    exact shift_so_bit m _ (by omega) (by omega) (by omega) (hidx ▸ hbit)
  · -- east neighbor (r, c+1): shift_o
    have hidx : idx (r : Int) ((c : Int) + 1) = 1 + (8 * r + c) := by
      unfold idx; omega
    refine Or.inl (Or.inl (Or.inl (Or.inl (Or.inr ?_))))
    exact shift_o_bit m _ (by omega) (by omega) (hidx ▸ hbit)
  · -- southeast neighbor (r+1, c+1): shift_no
    have hidx : idx ((r : Int) + 1) ((c : Int) + 1) = 9 + (8 * r + c) := by
      unfold idx; omega
    refine Or.inl (Or.inl (Or.inr ?_))
    exact shift_no_bit m _ (by omega) (by omega) (hidx ▸ hbit)
  · -- south neighbor (r+1, c): shift_n
    have hidx : idx ((r : Int) + 1) (c : Int) = 8 + (8 * r + c) := by
      unfold idx; omega
    refine Or.inl (Or.inl (Or.inl (Or.inl (Or.inl (Or.inl (Or.inl ?_))))))
    exact shift_n_bit m _ (by omega) (hidx ▸ hbit)
  · -- southwest neighbor (r+1, c-1): shift_ne
    have hidx : idx ((r : Int) + 1) ((c : Int) + -1) = 7 + (8 * r + c) := by
      unfold idx; omega
    refine Or.inl (Or.inl (Or.inl (Or.inr ?_)))
    exact shift_ne_bit m _ (by omega) (by omega) (hidx ▸ hbit)
  · -- west neighbor (r, c-1): shift_e
    have hidx : idx (r : Int) ((c : Int) + -1) = 8 * r + c - 1 := by
      unfold idx; omega
    refine Or.inl (Or.inl (Or.inl (Or.inl (Or.inl (Or.inr ?_)))))
    exact shift_e_bit m _ (by omega) (by omega) (hidx ▸ hbit)
  · -- northwest neighbor (r-1, c-1): shift_se
    have hidx : idx ((r : Int) + -1) ((c : Int) + -1) = 8 * r + c - 9 := by
      unfold idx; omega
    refine Or.inl (Or.inr ?_)
    exact shift_se_bit m _ (by omega) (by omega) (by omega) (hidx ▸ hbit)

end BitboardUtils

end Othello

namespace Othello

namespace BitboardUtils

/-- Full characterization of the `check_line` walk: it advances through some
`m ≤ fuel` consecutive cells that are on the board and hold opponent disks,
returns the position after them with count increased by `m`, and (unless the
fuel ran out) stops at the first cell failing the loop condition. -/
theorem lineWalk_spec (ob : Nat) (dr dc : Int) :
    ∀ (fuel : Nat) (r c : Int) (n : Nat),
    ∃ m : Nat, m ≤ fuel ∧
      lineWalk ob dr dc fuel r c n =
        (r + (m : Int) * dr, c + (m : Int) * dc, n + m) ∧
      (∀ j : Nat, j < m →
        inRange (r + (j : Int) * dr) (c + (j : Int) * dc) = true ∧
        ob.testBit (idx (r + (j : Int) * dr) (c + (j : Int) * dc)) = true) ∧
      (m = fuel ∨ (inRange (r + (m : Int) * dr) (c + (m : Int) * dc) &&
        ob.testBit (idx (r + (m : Int) * dr) (c + (m : Int) * dc))) = false) := by
  intro fuel
  induction fuel with
  | zero =>
    intro r c n
    refine ⟨0, le_refl 0, by simp [lineWalk], ?_, Or.inl rfl⟩
    exact fun j hj => absurd hj (Nat.not_lt_zero j)
  | succ fuel ih =>
    intro r c n
    by_cases h : (inRange r c && ob.testBit (idx r c)) = true
    · obtain ⟨m, hm, heq, hchain, hlast⟩ := ih (r + dr) (c + dc) (n + 1)
      refine ⟨m + 1, by omega, ?_, ?_, ?_⟩
      · simp only [lineWalk, h, if_true]
        rw [heq]
        simp only [Prod.mk.injEq]
        refine ⟨by push_cast; ring, by push_cast; ring, by omega⟩
      · intro j hj
        cases j with
        | zero =>
          simpa using (Bool.and_eq_true _ _).mp h
        | succ j =>
          have hc := hchain j (by omega)
          have e1 : r + ((j + 1 : Nat) : Int) * dr = r + dr + (j : Int) * dr := by
            push_cast; ring
          have e2 : c + ((j + 1 : Nat) : Int) * dc = c + dc + (j : Int) * dc := by
            push_cast; ring
          rw [e1, e2]
          exact hc
      · rcases hlast with h8 | hfalse
        · exact Or.inl (by omega)
        · right
          have e1 : r + ((m + 1 : Nat) : Int) * dr = r + dr + (m : Int) * dr := by
            push_cast; ring
          have e2 : c + ((m + 1 : Nat) : Int) * dc = c + dc + (m : Int) * dc := by
            push_cast; ring
          rw [e1, e2]
          exact hfalse
    · refine ⟨0, by omega, ?_, ?_, ?_⟩
      · simp only [lineWalk, h, if_false]
        simp
      · exact fun j hj => absurd hj (Nat.not_lt_zero j)
      · right
        simpa using h

end BitboardUtils

end Othello

namespace Othello

theorem testBit_and_eq_zero {x y : Nat} (h : x &&& y = 0) (i : Nat) :
    ¬(x.testBit i = true ∧ y.testBit i = true) := by
  rintro ⟨hx, hy⟩
  have hb : (x &&& y).testBit i = true := by
    simp [Nat.testBit_and, hx, hy]
  rw [h] at hb
  simp [Nat.zero_testBit] at hb

/-- No direction has nine consecutive on-board cells. -/
theorem directions_no_nine (d : Nat) (hd : d < 8) (r c : Int)
    (h : ∀ j : Nat, j ≤ 8 →
      inRange (r + (j : Int) * (DIRECTIONS d).1)
        (c + (j : Int) * (DIRECTIONS d).2) = true) : False := by
  have h0 := h 0 (by omega)
  have h8 := h 8 (by omega)
  interval_cases d <;>
    simp only [DIRECTIONS] at h0 h8 <;>
    simp only [inRange, Bool.and_eq_true, decide_eq_true_eq] at h0 h8 <;>
    push_cast at h0 h8 <;> omega

namespace BitboardUtils

/-- `check_line` decides exactly the claim's ray condition: `k ≥ 1`
contiguous on-board opponent disks starting next to `(row, col)` in the
given direction, followed by an on-board disk of the moving side.
(Disjointness of the two bitboards is the data-model invariant
`own & opponent == 0`; it rules out a bracket-end disk that is also an
opponent disk, which would carry the walk past it.) -/
theorem check_line_iff_specRay (row col : Int) (d : Nat) (hd : d < 8)
    (player : Nat) (board : Bitboard)
    (hdis : (get_player_board board player).1 &&&
      (get_player_board board player).2 = 0) :
    check_line row col d player board = true ↔
      specRay (get_player_board board player).1
        (get_player_board board player).2 row col
        (DIRECTIONS d).1 (DIRECTIONS d).2 := by
  set pb := (get_player_board board player).1 with hpb
  set ob := (get_player_board board player).2 with hob
  set dr := (DIRECTIONS d).1 with hdr
  set dc := (DIRECTIONS d).2 with hdc
  obtain ⟨m, hm, heq, hchain, hlast⟩ :=
    lineWalk_spec ob dr dc 8 (row + dr) (col + dc) 0
  have hpos : ∀ j : Nat, row + dr + (j : Int) * dr = row + ((j + 1 : Nat) : Int) * dr := by
    intro j; push_cast; ring
  have hpos2 : ∀ j : Nat, col + dc + (j : Int) * dc = col + ((j + 1 : Nat) : Int) * dc := by
    intro j; push_cast; ring
  constructor
  · intro hcl
    simp only [check_line] at hcl
    rw [← hdr, ← hdc, ← hpb, ← hob, heq] at hcl
    simp only [Bool.and_eq_true, decide_eq_true_eq] at hcl
    obtain ⟨hin, hpbbit, hn⟩ := hcl
    refine ⟨m, by omega, ?_, ?_, ?_⟩
    · intro j h1 hj
      have hc := hchain (j - 1) (by omega)
      rw [hpos, hpos2] at hc
      have hj1 : j - 1 + 1 = j := by omega
      rw [hj1] at hc
      exact hc
    · rw [hpos, hpos2] at hin
      simpa using hin
    · rw [hpos, hpos2] at hpbbit
      simpa using hpbbit
  · rintro ⟨k, hk1, hkchain, hkin, hkbit⟩
    have hmk : m = k := by
      rcases Nat.lt_trichotomy m k with hlt | heqmk | hgt
      · rcases hlast with hm8 | hfalse
        · subst hm8
          refine absurd ?_ (fun h => directions_no_nine d hd (row + dr) (col + dc) h)
          intro j hj
          have hc := (hkchain (j + 1) (by omega) (by omega)).1
          rw [hpos j, hpos2 j]
          exact hc
        · have hc := hkchain (m + 1) (by omega) (by omega)
          rw [← hpos m, ← hpos2 m] at hc
          rw [hc.1, hc.2] at hfalse
          simp at hfalse
      · exact heqmk
      · have hc := hchain k (by omega)
        rw [hpos, hpos2] at hc
        exact absurd ⟨hkbit, hc.2⟩ (testBit_and_eq_zero hdis _)
    subst hmk
    simp only [check_line]
    rw [← hdr, ← hdc, ← hpb, ← hob, heq]
    simp only [Bool.and_eq_true, decide_eq_true_eq]
    refine ⟨?_, ?_, by omega⟩
    · rw [hpos, hpos2]
      exact hkin
    · rw [hpos, hpos2]
      exact hkbit

end BitboardUtils

end Othello

namespace Othello

namespace BitboardUtils

/-- The flipping walk only ever clears opponent bits. -/
theorem flipRay_o_anti (dr dc : Int) :
    ∀ (fuel : Nat) (r c : Int) (po : Nat × Nat) (i : Nat),
    (flipRay dr dc fuel r c po).2.testBit i = true → po.2.testBit i = true := by
  intro fuel
  induction fuel with
  | zero => intro r c po i h; exact h
  | succ fuel ih =>
    intro r c po i h
    rw [flipRay] at h
    split at h
    · have := ih _ _ _ _ h
      simp only [Nat.testBit_and] at this
      exact (Bool.and_eq_true _ _).mp this |>.1
    · exact h

/-- The flipping walk only ever adds player bits. -/
theorem flipRay_p_mono (dr dc : Int) :
    ∀ (fuel : Nat) (r c : Int) (po : Nat × Nat) (i : Nat),
    po.1.testBit i = true → (flipRay dr dc fuel r c po).1.testBit i = true := by
  intro fuel
  induction fuel with
  | zero => intro r c po i h; exact h
  | succ fuel ih =>
    intro r c po i h
    rw [flipRay]
    split
    · refine ih _ _ _ _ ?_
      simp [Nat.testBit_or, h]
    · exact h

/-- The flipping walk keeps both bitboards inside 64 bits and preserves,
bit by bit, the union of the two boards. -/
theorem flipRay_bounds_union (dr dc : Int) :
    ∀ (fuel : Nat) (r c : Int) (po : Nat × Nat), po.1 < 2 ^ 64 →
    po.2 < 2 ^ 64 →
    (flipRay dr dc fuel r c po).1 < 2 ^ 64 ∧
    (flipRay dr dc fuel r c po).2 < 2 ^ 64 ∧
    ∀ i, ((flipRay dr dc fuel r c po).1.testBit i ||
        (flipRay dr dc fuel r c po).2.testBit i) =
      (po.1.testBit i || po.2.testBit i) := by
  intro fuel
  induction fuel with
  | zero => intro r c po h1 h2; exact ⟨h1, h2, fun i => rfl⟩
  | succ fuel ih =>
    intro r c po h1 h2
    rw [flipRay]
    split
    · rename_i hcond
      simp only [Bool.and_eq_true] at hcond
      have hb : idx r c < 64 := idx_lt_64 hcond.1
      have hone : (1 <<< idx r c : Nat) < 2 ^ 64 := by
        rw [Nat.shiftLeft_eq, one_mul]
        exact Nat.pow_lt_pow_right (by omega) hb
      have h1' : po.1 ||| (1 <<< idx r c) < 2 ^ 64 := Nat.or_lt_two_pow h1 hone
      have h2' : po.2 &&& (U64MASK ^^^ (1 <<< idx r c)) < 2 ^ 64 :=
        Nat.lt_of_le_of_lt Nat.and_le_left h2
      obtain ⟨g1, g2, g3⟩ := ih (r + dr) (c + dc)
        (po.1 ||| (1 <<< idx r c), po.2 &&& (U64MASK ^^^ (1 <<< idx r c)))
        h1' h2'
      refine ⟨g1, g2, fun i => ?_⟩
      rw [g3 i]
      by_cases hi : i = idx r c
      · subst hi
        simp [Nat.testBit_or, Nat.testBit_and, testBit_one_shl, hcond.2]
      · have e1 : ((1 <<< idx r c : Nat)).testBit i = false := by
          rw [testBit_one_shl]
          simp [Ne.symm hi]
        by_cases h64 : i < 64
        · simp [Nat.testBit_or, Nat.testBit_and, Nat.testBit_xor, e1,
            testBit_U64MASK, h64]
        · have o2 : po.2.testBit i = false :=
            Nat.testBit_lt_two_pow (lt_of_lt_of_le h2
              (Nat.pow_le_pow_right (by omega) (by omega)))
          simp [Nat.testBit_or, Nat.testBit_and, Nat.testBit_xor, e1,
            testBit_U64MASK, h64, o2]
    · exact ⟨h1, h2, fun i => rfl⟩

/-- On disjoint boards the flipping walk preserves disjointness and, bit by
bit, the number of set bits across the two boards. -/
theorem flipRay_disjoint_sum (dr dc : Int) :
    ∀ (fuel : Nat) (r c : Int) (po : Nat × Nat), po.1 &&& po.2 = 0 →
    po.1 < 2 ^ 64 → po.2 < 2 ^ 64 →
    (flipRay dr dc fuel r c po).1 &&& (flipRay dr dc fuel r c po).2 = 0 ∧
    ∀ i, ((flipRay dr dc fuel r c po).1.testBit i).toNat +
        ((flipRay dr dc fuel r c po).2.testBit i).toNat =
      (po.1.testBit i).toNat + (po.2.testBit i).toNat := by
  intro fuel
  induction fuel with
  | zero => intro r c po hd h1 h2; exact ⟨hd, fun i => rfl⟩
  | succ fuel ih =>
    intro r c po hd h1 h2
    rw [flipRay]
    split
    · rename_i hcond
      simp only [Bool.and_eq_true] at hcond
      have hb : idx r c < 64 := idx_lt_64 hcond.1
      have hone : (1 <<< idx r c : Nat) < 2 ^ 64 := by
        rw [Nat.shiftLeft_eq, one_mul]
        exact Nat.pow_lt_pow_right (by omega) hb
      have h1' : po.1 ||| (1 <<< idx r c) < 2 ^ 64 := Nat.or_lt_two_pow h1 hone
      have h2' : po.2 &&& (U64MASK ^^^ (1 <<< idx r c)) < 2 ^ 64 :=
        Nat.lt_of_le_of_lt Nat.and_le_left h2
      have hpo1 : po.1.testBit (idx r c) = false := by
        cases h : po.1.testBit (idx r c)
        · rfl
        · exact absurd ⟨h, hcond.2⟩ (testBit_and_eq_zero hd _)
      have hd' : (po.1 ||| (1 <<< idx r c)) &&&
          (po.2 &&& (U64MASK ^^^ (1 <<< idx r c))) = 0 := by
        apply Nat.eq_of_testBit_eq
        intro i
        simp only [Nat.testBit_and, Nat.testBit_or, Nat.testBit_xor,
          Nat.zero_testBit, testBit_one_shl, testBit_U64MASK]
        by_cases hi : i = idx r c
        · subst hi
          simp [hb]
        · have e : (decide (idx r c = i)) = false := by simp [Ne.symm hi]
          rw [e]
          by_cases h64 : i < 64
          · have hdis := testBit_and_eq_zero hd i
            cases hp : po.1.testBit i
            · simp
            · have ho : po.2.testBit i = false := by
                cases ho : po.2.testBit i
                · rfl
                · exact absurd ⟨hp, ho⟩ hdis
              simp [ho]
          · have ho : po.2.testBit i = false :=
              Nat.testBit_lt_two_pow (lt_of_lt_of_le h2
                (Nat.pow_le_pow_right (by omega) (by omega)))
            simp [ho]
      obtain ⟨g1, g2⟩ := ih (r + dr) (c + dc)
        (po.1 ||| (1 <<< idx r c), po.2 &&& (U64MASK ^^^ (1 <<< idx r c)))
        hd' h1' h2'
      refine ⟨g1, fun i => ?_⟩
      rw [g2 i]
      by_cases hi : i = idx r c
      · subst hi
        simp [Nat.testBit_or, Nat.testBit_and, Nat.testBit_xor, testBit_one_shl,
          testBit_U64MASK, hpo1, hcond.2, hb]
      · have e1 : ((1 <<< idx r c : Nat)).testBit i = false := by
          rw [testBit_one_shl]; simp [Ne.symm hi]
        by_cases h64 : i < 64
        · simp [Nat.testBit_or, Nat.testBit_and, Nat.testBit_xor, e1,
            testBit_U64MASK, h64]
        · have o2 : po.2.testBit i = false :=
            Nat.testBit_lt_two_pow (lt_of_lt_of_le h2
              (Nat.pow_le_pow_right (by omega) (by omega)))
          simp [Nat.testBit_or, Nat.testBit_and, Nat.testBit_xor, e1,
            testBit_U64MASK, h64, o2]
    · exact ⟨hd, fun i => rfl⟩

/-- Executing the flipping walk from an on-board cell currently held by the
opponent flips that cell: afterwards it belongs to the player board and not
to the opponent board. -/
theorem flipRay_head (dr dc : Int) (fuel : Nat) (r c : Int) (po : Nat × Nat)
    (hin : inRange r c = true) (hbit : po.2.testBit (idx r c) = true) :
    (flipRay dr dc (fuel + 1) r c po).1.testBit (idx r c) = true ∧
    (flipRay dr dc (fuel + 1) r c po).2.testBit (idx r c) = false := by
  rw [flipRay, if_pos (by simp [hin, hbit])]
  constructor
  · apply flipRay_p_mono
    simp [Nat.testBit_or]
  · cases h : (flipRay dr dc fuel (r + dr) (c + dc)
        (po.1 ||| (1 <<< idx r c),
         po.2 &&& (U64MASK ^^^ (1 <<< idx r c)))).2.testBit (idx r c)
    · rfl
    · have hanti := flipRay_o_anti dr dc fuel _ _ _ _ h
      simp only [Nat.testBit_and, Nat.testBit_xor, testBit_one_shl,
        testBit_U64MASK, idx_lt_64 hin] at hanti
      simp at hanti

end BitboardUtils

end Othello

namespace Othello

namespace BitboardUtils

theorem flipDirs_o_anti (row col : Int) (player : Nat) (board : Bitboard) :
    ∀ (l : List Nat) (po : Nat × Nat) (i : Nat),
    ((l.foldl (fun po direction =>
      if check_line row col direction player board then
        flipRay (DIRECTIONS direction).1 (DIRECTIONS direction).2 8
          (row + (DIRECTIONS direction).1) (col + (DIRECTIONS direction).2) po
      else po) po).2.testBit i = true) → po.2.testBit i = true := by
  intro l
  induction l with
  | nil => intro po i h; exact h
  | cons a l ih =>
    intro po i h
    by_cases ha : check_line row col a player board
    · simp only [List.foldl_cons, ha, if_true] at h
      exact flipRay_o_anti _ _ _ _ _ _ _ (ih _ _ h)
    · simp only [List.foldl_cons, ha, if_false] at h
      exact ih _ _ h

theorem flipDirs_p_mono (row col : Int) (player : Nat) (board : Bitboard) :
    ∀ (l : List Nat) (po : Nat × Nat) (i : Nat), po.1.testBit i = true →
    ((l.foldl (fun po direction =>
      if check_line row col direction player board then
        flipRay (DIRECTIONS direction).1 (DIRECTIONS direction).2 8
          (row + (DIRECTIONS direction).1) (col + (DIRECTIONS direction).2) po
      else po) po).1.testBit i = true) := by
  intro l
  induction l with
  | nil => intro po i h; exact h
  | cons a l ih =>
    intro po i h
    by_cases ha : check_line row col a player board
    · simp only [List.foldl_cons, ha, if_true]
      exact ih _ _ (flipRay_p_mono _ _ _ _ _ _ _ h)
    · simp only [List.foldl_cons, ha, if_false]
      exact ih _ _ h

theorem flipDirs_bounds_union (row col : Int) (player : Nat) (board : Bitboard) :
    ∀ (l : List Nat) (po : Nat × Nat), po.1 < 2 ^ 64 → po.2 < 2 ^ 64 →
    (l.foldl (fun po direction =>
      if check_line row col direction player board then
        flipRay (DIRECTIONS direction).1 (DIRECTIONS direction).2 8
          (row + (DIRECTIONS direction).1) (col + (DIRECTIONS direction).2) po
      else po) po).1 < 2 ^ 64 ∧
    (l.foldl (fun po direction =>
      if check_line row col direction player board then
        flipRay (DIRECTIONS direction).1 (DIRECTIONS direction).2 8
          (row + (DIRECTIONS direction).1) (col + (DIRECTIONS direction).2) po
      else po) po).2 < 2 ^ 64 ∧
    ∀ i, ((l.foldl (fun po direction =>
      if check_line row col direction player board then
        flipRay (DIRECTIONS direction).1 (DIRECTIONS direction).2 8
          (row + (DIRECTIONS direction).1) (col + (DIRECTIONS direction).2) po
      else po) po).1.testBit i ||
      (l.foldl (fun po direction =>
      if check_line row col direction player board then
        flipRay (DIRECTIONS direction).1 (DIRECTIONS direction).2 8
          (row + (DIRECTIONS direction).1) (col + (DIRECTIONS direction).2) po
      else po) po).2.testBit i) = (po.1.testBit i || po.2.testBit i) := by
  intro l
  induction l with
  | nil => intro po h1 h2; exact ⟨h1, h2, fun i => rfl⟩
  | cons a l ih =>
    intro po h1 h2
    by_cases ha : check_line row col a player board
    · simp only [List.foldl_cons, ha, if_true]
      obtain ⟨k1, k2, k3⟩ := flipRay_bounds_union (DIRECTIONS a).1
        (DIRECTIONS a).2 8 (row + (DIRECTIONS a).1) (col + (DIRECTIONS a).2)
        po h1 h2
      obtain ⟨g1, g2, g3⟩ := ih _ k1 k2
      exact ⟨g1, g2, fun i => (g3 i).trans (k3 i)⟩
    · simp only [List.foldl_cons, ha, if_false]
      exact ih _ h1 h2

theorem flipDirs_disjoint_sum (row col : Int) (player : Nat) (board : Bitboard) :
    ∀ (l : List Nat) (po : Nat × Nat), po.1 &&& po.2 = 0 → po.1 < 2 ^ 64 →
    po.2 < 2 ^ 64 →
    (l.foldl (fun po direction =>
      if check_line row col direction player board then
        flipRay (DIRECTIONS direction).1 (DIRECTIONS direction).2 8
          (row + (DIRECTIONS direction).1) (col + (DIRECTIONS direction).2) po
      else po) po).1 &&&
    (l.foldl (fun po direction =>
      if check_line row col direction player board then
        flipRay (DIRECTIONS direction).1 (DIRECTIONS direction).2 8
          (row + (DIRECTIONS direction).1) (col + (DIRECTIONS direction).2) po
      else po) po).2 = 0 ∧
    ∀ i, (((l.foldl (fun po direction =>
      if check_line row col direction player board then
        flipRay (DIRECTIONS direction).1 (DIRECTIONS direction).2 8
          (row + (DIRECTIONS direction).1) (col + (DIRECTIONS direction).2) po
      else po) po).1.testBit i).toNat +
      ((l.foldl (fun po direction =>
      if check_line row col direction player board then
        flipRay (DIRECTIONS direction).1 (DIRECTIONS direction).2 8
          (row + (DIRECTIONS direction).1) (col + (DIRECTIONS direction).2) po
      else po) po).2.testBit i).toNat) =
      (po.1.testBit i).toNat + (po.2.testBit i).toNat := by
  intro l
  induction l with
  | nil => intro po hd h1 h2; exact ⟨hd, fun i => rfl⟩
  | cons a l ih =>
    intro po hd h1 h2
    by_cases ha : check_line row col a player board
    · simp only [List.foldl_cons, ha, if_true]
      obtain ⟨k1, k2⟩ := flipRay_disjoint_sum (DIRECTIONS a).1
        (DIRECTIONS a).2 8 (row + (DIRECTIONS a).1) (col + (DIRECTIONS a).2)
        po hd h1 h2
      obtain ⟨b1, b2, -⟩ := flipRay_bounds_union (DIRECTIONS a).1
        (DIRECTIONS a).2 8 (row + (DIRECTIONS a).1) (col + (DIRECTIONS a).2)
        po h1 h2
      obtain ⟨g1, g2⟩ := ih _ k1 b1 b2
      exact ⟨g1, fun i => (g2 i).trans (k2 i)⟩
    · simp only [List.foldl_cons, ha, if_false]
      exact ih _ hd h1 h2

/-- If some direction of the list has a valid bracketing line whose first
cell `B` (the neighbor of the move square) is on the board and currently
covered by the union of the two boards, then after the direction loop the
cell belongs to the player board and not to the opponent board. -/
theorem flipDirs_clears (row col : Int) (player : Nat) (board : Bitboard)
    (d : Nat) (hcl : check_line row col d player board = true)
    (hin : inRange (row + (DIRECTIONS d).1) (col + (DIRECTIONS d).2) = true) :
    ∀ (l : List Nat) (po : Nat × Nat), d ∈ l → po.1 < 2 ^ 64 → po.2 < 2 ^ 64 →
    (po.1.testBit (idx (row + (DIRECTIONS d).1) (col + (DIRECTIONS d).2)) ||
      po.2.testBit (idx (row + (DIRECTIONS d).1) (col + (DIRECTIONS d).2))) = true →
    ((l.foldl (fun po direction =>
      if check_line row col direction player board then
        flipRay (DIRECTIONS direction).1 (DIRECTIONS direction).2 8
          (row + (DIRECTIONS direction).1) (col + (DIRECTIONS direction).2) po
      else po) po).1.testBit
        (idx (row + (DIRECTIONS d).1) (col + (DIRECTIONS d).2)) = true ∧
     (l.foldl (fun po direction =>
      if check_line row col direction player board then
        flipRay (DIRECTIONS direction).1 (DIRECTIONS direction).2 8
          (row + (DIRECTIONS direction).1) (col + (DIRECTIONS direction).2) po
      else po) po).2.testBit
        (idx (row + (DIRECTIONS d).1) (col + (DIRECTIONS d).2)) = false) := by
  intro l
  induction l with
  | nil => intro po hmem; exact absurd hmem (List.not_mem_nil d)
  | cons a l ih =>
    intro po hmem h1 h2 hu
    rcases List.mem_cons.mp hmem with rfl | hmem'
    · -- the valid direction is processed now
      simp only [List.foldl_cons, hcl, if_true]
      set B := idx (row + (DIRECTIONS d).1) (col + (DIRECTIONS d).2) with hB
      cases hob : po.2.testBit B
      · -- already flipped (or never the opponent's): the player holds it
        have hp : po.1.testBit B = true := by
          rcases Bool.or_eq_true_iff.mp hu with h | h
          · exact h
          · exact absurd h (by simp [hob])
        have hp' := flipRay_p_mono (DIRECTIONS d).1 (DIRECTIONS d).2 8
          (row + (DIRECTIONS d).1) (col + (DIRECTIONS d).2) po B hp
        have ho' : (flipRay (DIRECTIONS d).1 (DIRECTIONS d).2 8
            (row + (DIRECTIONS d).1) (col + (DIRECTIONS d).2) po).2.testBit B
            = false := by
          cases hx : (flipRay (DIRECTIONS d).1 (DIRECTIONS d).2 8
            (row + (DIRECTIONS d).1) (col + (DIRECTIONS d).2) po).2.testBit B
          · rfl
          · have := flipRay_o_anti (DIRECTIONS d).1 (DIRECTIONS d).2 8
              (row + (DIRECTIONS d).1) (col + (DIRECTIONS d).2) po B hx
            rw [hob] at this
            exact this.symm
        constructor
        · exact flipDirs_p_mono row col player board l _ B hp'
        · cases hy : (l.foldl (fun po direction =>
              if check_line row col direction player board then
                flipRay (DIRECTIONS direction).1 (DIRECTIONS direction).2 8
                  (row + (DIRECTIONS direction).1)
                  (col + (DIRECTIONS direction).2) po
              else po)
            (flipRay (DIRECTIONS d).1 (DIRECTIONS d).2 8
              (row + (DIRECTIONS d).1) (col + (DIRECTIONS d).2) po)).2.testBit B
          · rfl
          · have hcontra := flipDirs_o_anti row col player board l _ B hy
            rw [ho'] at hcontra
            exact hcontra.symm
      · -- the cell is an opponent disk: the walk flips it
        obtain ⟨hp7, ho7⟩ := flipRay_head (DIRECTIONS d).1 (DIRECTIONS d).2 7
          (row + (DIRECTIONS d).1) (col + (DIRECTIONS d).2) po hin hob
        have hp' : (flipRay (DIRECTIONS d).1 (DIRECTIONS d).2 8
            (row + (DIRECTIONS d).1) (col + (DIRECTIONS d).2) po).1.testBit B
            = true := hp7
        have ho' : (flipRay (DIRECTIONS d).1 (DIRECTIONS d).2 8
            (row + (DIRECTIONS d).1) (col + (DIRECTIONS d).2) po).2.testBit B
            = false := ho7
        constructor
        · exact flipDirs_p_mono row col player board l _ B hp'
        · cases hy : (l.foldl (fun po direction =>
              if check_line row col direction player board then
                flipRay (DIRECTIONS direction).1 (DIRECTIONS direction).2 8
                  (row + (DIRECTIONS direction).1)
                  (col + (DIRECTIONS direction).2) po
              else po)
            (flipRay (DIRECTIONS d).1 (DIRECTIONS d).2 8
              (row + (DIRECTIONS d).1) (col + (DIRECTIONS d).2) po)).2.testBit B
          · rfl
          · have hcontra := flipDirs_o_anti row col player board l _ B hy
            rw [ho'] at hcontra
            exact hcontra.symm
    · -- some other direction first: the invariants carry the union across
      simp only [List.foldl_cons]
      by_cases ha : check_line row col a player board
      · rw [if_pos ha]
        obtain ⟨k1, k2, k3⟩ := flipRay_bounds_union (DIRECTIONS a).1
          (DIRECTIONS a).2 8 (row + (DIRECTIONS a).1) (col + (DIRECTIONS a).2)
          po h1 h2
        exact ih _ hmem' k1 k2 ((k3 _).trans hu)
      · rw [if_neg ha]
        exact ih _ hmem' h1 h2 hu

end BitboardUtils

theorem countOnesAux_eq (fuel : Nat) :
    ∀ x : Nat, x < 2 ^ fuel →
    BitboardUtils.countOnesAux fuel x =
      ∑ i in Finset.range fuel, (x.testBit i).toNat := by
  induction fuel with
  | zero =>
    intro x hx
    interval_cases x
    simp [BitboardUtils.countOnesAux]
  | succ fuel ih =>
    intro x hx
    rw [BitboardUtils.countOnesAux]
    by_cases h0 : x = 0
    · subst h0
      simp [Nat.zero_testBit]
    · rw [if_neg h0]
      have hdiv : x / 2 < 2 ^ fuel := by
        rw [pow_succ] at hx
        omega
      rw [ih (x / 2) hdiv, Finset.sum_range_succ']
      have hbit : ∀ i, ((x / 2).testBit i).toNat = (x.testBit (i + 1)).toNat := by
        intro i
        rw [Nat.testBit_succ]
      have hzero : (x.testBit 0).toNat = x % 2 := by
        rw [Nat.testBit_zero]
        rcases Nat.mod_two_eq_zero_or_one x with h | h <;> simp [h]
      rw [hzero]
      rw [Finset.sum_congr rfl (fun i _ => hbit i)]
      omega

theorem count_ones_eq (x : Nat) (h : x < 2 ^ 64) :
    BitboardUtils.count_ones x = ∑ i in Finset.range 64, (x.testBit i).toNat :=
  countOnesAux_eq 64 x h

end Othello

namespace Othello

theorem disjoint_or_fresh {x y : Nat} (B : Nat) (hd : x &&& y = 0)
    (hfresh : y.testBit B = false) : (x ||| (1 <<< B)) &&& y = 0 := by
  apply Nat.eq_of_testBit_eq
  intro i
  simp only [Nat.testBit_and, Nat.testBit_or, testBit_one_shl, Nat.zero_testBit]
  by_cases hi : i = B
  · subst hi
    simp [hfresh]
  · have e : (decide (B = i)) = false := by simp [Ne.symm hi]
    rw [e]
    have hdis := testBit_and_eq_zero hd i
    cases hx : x.testBit i
    · simp
    · cases hy : y.testBit i
      · simp
      · exact absurd ⟨hx, hy⟩ hdis

theorem count_ones_or_fresh (x B : Nat) (hB : B < 64) (hx : x < 2 ^ 64)
    (hfresh : x.testBit B = false) :
    BitboardUtils.count_ones (x ||| (1 <<< B)) =
      BitboardUtils.count_ones x + 1 := by
  have hone : (1 <<< B : Nat) < 2 ^ 64 := by
    rw [Nat.shiftLeft_eq, one_mul]
    exact Nat.pow_lt_pow_right (by omega) hB
  rw [count_ones_eq _ (Nat.or_lt_two_pow hx hone), count_ones_eq x hx]
  have hpoint : ∀ i ∈ Finset.range 64,
      ((x ||| (1 <<< B)).testBit i).toNat =
        (x.testBit i).toNat + (if i = B then 1 else 0) := by
    intro i _
    simp only [Nat.testBit_or, testBit_one_shl]
    by_cases hi : i = B
    · subst hi
      simp [hfresh]
    · have e : (decide (B = i)) = false := by simp [Ne.symm hi]
      simp [e, hi]
  have hsum : (∑ i in Finset.range 64, if i = B then (1 : Nat) else 0) = 1 := by
    rw [Finset.sum_ite_eq' (Finset.range 64) B (fun _ => 1)]
    simp [Finset.mem_range.mpr hB]
  rw [Finset.sum_congr rfl hpoint, Finset.sum_add_distrib, hsum]

/-- Core lemma for C2 and the first half of C6: on a disjoint board with the
move square empty, `flip_tiles` (`utils/bitboard_utils.py`) adds exactly one
disk to the combined count and keeps the two bitboards disjoint. -/
theorem flip_tiles_core (board : Bitboard) (player : Nat)
    (hp : player = 1 ∨ player = 2) (hfit : Fits64 board)
    (hdis : Disjoint64 board) (row col : Int) (hB : idx row col < 64)
    (hocc : (board.1 ||| board.2).testBit (idx row col) = false) :
    BitboardUtils.count_ones (BitboardUtils.flip_tiles (row, col) player board).1 +
      BitboardUtils.count_ones (BitboardUtils.flip_tiles (row, col) player board).2 =
      BitboardUtils.count_ones board.1 + BitboardUtils.count_ones board.2 + 1 ∧
    Disjoint64 (BitboardUtils.flip_tiles (row, col) player board) := by
  have hocc1 : board.1.testBit (idx row col) = false := by
    simp only [Nat.testBit_or, Bool.or_eq_false_iff] at hocc
    exact hocc.1
  have hocc2 : board.2.testBit (idx row col) = false := by
    simp only [Nat.testBit_or, Bool.or_eq_false_iff] at hocc
    exact hocc.2
  have hone : (1 <<< idx row col : Nat) < 2 ^ 64 := by
    rw [Nat.shiftLeft_eq, one_mul]
    exact Nat.pow_lt_pow_right (by omega) hB
  -- player / opponent views
  have hview :
      ((BitboardUtils.get_player_board board player).1 = board.1 ∧
        (BitboardUtils.get_player_board board player).2 = board.2 ∨
       (BitboardUtils.get_player_board board player).1 = board.2 ∧
        (BitboardUtils.get_player_board board player).2 = board.1) := by
    rcases hp with rfl | rfl
    · left; exact ⟨rfl, rfl⟩
    · right
      constructor <;> simp [BitboardUtils.get_player_board]
  obtain hv | hv := hview
  all_goals {
    obtain ⟨hv1, hv2⟩ := hv
    have hpb0 : (BitboardUtils.get_player_board board player).1.testBit
        (idx row col) = false := by rw [hv1]; first | exact hocc1 | exact hocc2
    have hob0 : (BitboardUtils.get_player_board board player).2.testBit
        (idx row col) = false := by rw [hv2]; first | exact hocc1 | exact hocc2
    have hfit1 : (BitboardUtils.get_player_board board player).1 < 2 ^ 64 := by
      rw [hv1]; first | exact hfit.1 | exact hfit.2
    have hfit2 : (BitboardUtils.get_player_board board player).2 < 2 ^ 64 := by
      rw [hv2]; first | exact hfit.1 | exact hfit.2
    have hdis0 : (BitboardUtils.get_player_board board player).1 &&&
        (BitboardUtils.get_player_board board player).2 = 0 := by
      rw [hv1, hv2]
      first | exact hdis | (rw [Nat.and_comm]; exact hdis)
    have hinit_d : ((BitboardUtils.get_player_board board player).1 |||
        (1 <<< idx row col)) &&&
        (BitboardUtils.get_player_board board player).2 = 0 :=
      disjoint_or_fresh _ hdis0 hob0
    have hinit_1 : (BitboardUtils.get_player_board board player).1 |||
        (1 <<< idx row col) < 2 ^ 64 := Nat.or_lt_two_pow hfit1 hone
    obtain ⟨gd, gsum⟩ := BitboardUtils.flipDirs_disjoint_sum row col player
      board (List.range 8)
      ((BitboardUtils.get_player_board board player).1 ||| (1 <<< idx row col),
       (BitboardUtils.get_player_board board player).2) hinit_d hinit_1 hfit2
    obtain ⟨gb1, gb2, -⟩ := BitboardUtils.flipDirs_bounds_union row col player
      board (List.range 8)
      ((BitboardUtils.get_player_board board player).1 ||| (1 <<< idx row col),
       (BitboardUtils.get_player_board board player).2) hinit_1 hfit2
    have hcount : BitboardUtils.count_ones ((List.range 8).foldl
        (fun po direction =>
          if BitboardUtils.check_line row col direction player board then
            BitboardUtils.flipRay (DIRECTIONS direction).1
              (DIRECTIONS direction).2 8 (row + (DIRECTIONS direction).1)
              (col + (DIRECTIONS direction).2) po
          else po)
        ((BitboardUtils.get_player_board board player).1 ||| (1 <<< idx row col),
         (BitboardUtils.get_player_board board player).2)).1 +
        BitboardUtils.count_ones ((List.range 8).foldl
        (fun po direction =>
          if BitboardUtils.check_line row col direction player board then
            BitboardUtils.flipRay (DIRECTIONS direction).1
              (DIRECTIONS direction).2 8 (row + (DIRECTIONS direction).1)
              (col + (DIRECTIONS direction).2) po
          else po)
        ((BitboardUtils.get_player_board board player).1 ||| (1 <<< idx row col),
         (BitboardUtils.get_player_board board player).2)).2 =
        BitboardUtils.count_ones board.1 + BitboardUtils.count_ones board.2
          + 1 := by
      rw [count_ones_eq _ gb1, count_ones_eq _ gb2, ← Finset.sum_add_distrib]
      rw [Finset.sum_congr rfl (fun i _ => gsum i), Finset.sum_add_distrib]
      rw [← count_ones_eq _ hinit_1, ← count_ones_eq _ hfit2]
      rw [count_ones_or_fresh _ _ hB hfit1 hpb0]
      rw [hv1, hv2]
      ring
    constructor
    · show BitboardUtils.count_ones _ + BitboardUtils.count_ones _ = _
      simp only [BitboardUtils.flip_tiles]
      rcases hp with rfl | rfl
      · simpa using hcount
      · simp only [BitboardUtils.get_player_board] at hcount ⊢
        simpa [Nat.add_comm] using hcount
    · show Disjoint64 _
      unfold Disjoint64
      simp only [BitboardUtils.flip_tiles]
      rcases hp with rfl | rfl
      · simpa using gd
      · simp only [BitboardUtils.get_player_board] at gd ⊢
        simpa [Nat.and_comm] using gd
  }

end Othello

namespace Othello

/-- `is_valid_move` rejects occupied squares. -/
theorem is_valid_move_not_occupied (move : Int × Int) (player : Nat)
    (board : Bitboard)
    (hval : BitboardUtils.is_valid_move move player board = true) :
    (board.1 ||| board.2).testBit (idx move.1 move.2) = false := by
  cases h : (board.1 ||| board.2).testBit (idx move.1 move.2)
  · rfl
  · exfalso
    simp only [BitboardUtils.is_valid_move, h, if_true] at hval
    exact Bool.false_ne_true hval

/-- `is_valid_move` decides exactly the claim's legality condition. -/
theorem is_valid_move_iff_specLegal (board : Bitboard) (player : Nat)
    (hp : player = 1 ∨ player = 2) (hdis : Disjoint64 board)
    (r c : Nat) (hr : r < 8) (hc : c < 8) :
    BitboardUtils.is_valid_move ((r : Int), (c : Int)) player board = true ↔
      specLegal board player r c := by
  have hdis0 : (BitboardUtils.get_player_board board player).1 &&&
      (BitboardUtils.get_player_board board player).2 = 0 := by
    rcases hp with rfl | rfl
    · exact hdis
    · show board.2 &&& board.1 = 0
      rw [Nat.and_comm]; exact hdis
  have hidx : idx (r : Int) (c : Int) = 8 * r + c := idx_coe r c hr hc
  constructor
  · intro hval
    have hocc := is_valid_move_not_occupied _ _ _ hval
    rw [hidx] at hocc
    simp only [BitboardUtils.is_valid_move] at hval
    rw [hidx, hocc] at hval
    simp only [Bool.false_eq_true, if_false, List.any_eq_true,
      List.mem_range] at hval
    obtain ⟨d, hd8, hcl⟩ := hval
    exact ⟨hocc, d, hd8,
      (BitboardUtils.check_line_iff_specRay _ _ d hd8 player board hdis0).mp hcl⟩
  · rintro ⟨hocc, d, hd8, hray⟩
    simp only [BitboardUtils.is_valid_move]
    rw [hidx, hocc]
    simp only [Bool.false_eq_true, if_false, List.any_eq_true, List.mem_range]
    exact ⟨d, hd8,
      (BitboardUtils.check_line_iff_specRay _ _ d hd8 player board hdis0).mpr hray⟩

/-- Membership in `get_possible_moves`, unfolded. -/
theorem mem_get_possible_moves (player : Nat) (board : Bitboard)
    (p : Nat × Nat) :
    p ∈ BitboardUtils.get_possible_moves player board ↔
      p.1 < 8 ∧ p.2 < 8 ∧
      (BitboardUtils.find_empty_neighbors_of_player (3 - player)
        board).testBit (8 * p.1 + p.2) = true ∧
      BitboardUtils.is_valid_move ((p.1 : Int), (p.2 : Int)) player board
        = true := by
  simp only [BitboardUtils.get_possible_moves, List.mem_flatMap,
    List.mem_filterMap, List.mem_range, Option.ite_none_right_eq_some,
    Option.some.injEq, Bool.and_eq_true]
  constructor
  · rintro ⟨row, hrow, col, hcol, ⟨hbit, hvalid⟩, rfl⟩
    exact ⟨hrow, hcol, hbit, hvalid⟩
  · rintro ⟨h1, h2, h3, h4⟩
    exact ⟨p.1, h1, p.2, h2, ⟨h3, h4⟩, rfl⟩

/-- A legal move's square is both empty and adjacent to an opponent disk,
so the pre-filter bitmask of `get_possible_moves` covers it. -/
theorem valid_en_bit (board : Bitboard) (player : Nat)
    (hp : player = 1 ∨ player = 2) (hdis : Disjoint64 board)
    (r c : Nat) (hr : r < 8) (hc : c < 8)
    (hval : BitboardUtils.is_valid_move ((r : Int), (c : Int)) player board
      = true) :
    (BitboardUtils.find_empty_neighbors_of_player (3 - player) board).testBit
      (8 * r + c) = true := by
  obtain ⟨hocc, d, hd8, hray⟩ :=
    (is_valid_move_iff_specLegal board player hp hdis r c hr hc).mp hval
  obtain ⟨k, hk1, hchain, -, -⟩ := hray
  obtain ⟨hin1, hbit1⟩ := hchain 1 le_rfl hk1
  have e1 : (r : Int) + ((1 : Nat) : Int) * (DIRECTIONS d).1 =
      (r : Int) + (DIRECTIONS d).1 := by push_cast; ring
  have e2 : (c : Int) + ((1 : Nat) : Int) * (DIRECTIONS d).2 =
      (c : Int) + (DIRECTIONS d).2 := by push_cast; ring
  rw [e1, e2] at hin1 hbit1
  have hob : (BitboardUtils.get_player_board board player).2 =
      (if (3 - player) = 1 then board.1 else board.2) := by
    rcases hp with rfl | rfl <;> rfl
  have hdil := BitboardUtils.dilation_testBit_of_neighbor
    (if (3 - player) = 1 then board.1 else board.2) r c hr hc d hd8 hin1
    (hob ▸ hbit1)
  simp only [BitboardUtils.find_empty_neighbors_of_player]
  rw [Nat.testBit_and]
  refine (Bool.and_eq_true _ _).mpr ⟨?_, hdil⟩
  rw [Nat.testBit_xor, testBit_U64MASK]
  have hB : 8 * r + c < 64 := by omega
  have hall : ((if (3 - player) = 1 then board.1 else board.2) |||
      (if (3 - player) = 1 then board.2 else board.1)).testBit (8 * r + c)
      = false := by
    simp only [Nat.testBit_or, Bool.or_eq_false_iff] at hocc
    rcases hp with rfl | rfl
    · norm_num
      exact ⟨hocc.2, hocc.1⟩
    · norm_num
      exact ⟨hocc.1, hocc.2⟩
  rw [hall]
  simp [hB]

end Othello

namespace Othello

theorem gpb_fits (board : Bitboard) (player : Nat) (hfit : Fits64 board) :
    (BitboardUtils.get_player_board board player).1 < 2 ^ 64 ∧
    (BitboardUtils.get_player_board board player).2 < 2 ^ 64 := by
  unfold BitboardUtils.get_player_board
  by_cases h : player = 1
  · simp only [h, if_true]
    exact ⟨hfit.1, hfit.2⟩
  · simp only [h, if_false]
    exact ⟨hfit.2, hfit.1⟩

theorem gpb_disjoint (board : Bitboard) (player : Nat)
    (hdis : Disjoint64 board) :
    (BitboardUtils.get_player_board board player).1 &&&
      (BitboardUtils.get_player_board board player).2 = 0 := by
  unfold BitboardUtils.get_player_board
  by_cases h : player = 1
  · simp only [h, if_true]
    exact hdis
  · simp only [h, if_false]
    rw [Nat.and_comm]
    exact hdis

theorem gpb_empty_bits (board : Bitboard) (player : Nat) (i : Nat)
    (hocc : (board.1 ||| board.2).testBit i = false) :
    (BitboardUtils.get_player_board board player).1.testBit i = false ∧
    (BitboardUtils.get_player_board board player).2.testBit i = false := by
  simp only [Nat.testBit_or, Bool.or_eq_false_iff] at hocc
  unfold BitboardUtils.get_player_board
  by_cases h : player = 1
  · simp only [h, if_true]
    exact hocc
  · simp only [h, if_false]
    exact ⟨hocc.2, hocc.1⟩

/-- Core lemma for the second half of C6: the root-module `flip_tiles`
(`bitboard_utils.py`, which sets the move bit after the direction loop)
also preserves disjointness of the two bitboards. -/
theorem root_flip_tiles_core (board : Bitboard) (player : Nat)
    (hp : player = 1 ∨ player = 2) (hfit : Fits64 board)
    (hdis : Disjoint64 board) (row col : Int)
    (hocc : (board.1 ||| board.2).testBit (idx row col) = false) :
    Disjoint64 (RootBitboardUtils.flip_tiles (row, col) player board) := by
  obtain ⟨hf1, hf2⟩ := gpb_fits board player hfit
  have hd0 := gpb_disjoint board player hdis
  have hob0 := (gpb_empty_bits board player (idx row col) hocc).2
  obtain ⟨gd, -⟩ := BitboardUtils.flipDirs_disjoint_sum row col player board
    (List.range 8)
    ((BitboardUtils.get_player_board board player).1,
     (BitboardUtils.get_player_board board player).2) hd0 hf1 hf2
  have hresB : ((List.range 8).foldl
      (fun po direction =>
        if BitboardUtils.check_line row col direction player board then
          BitboardUtils.flipRay (DIRECTIONS direction).1
            (DIRECTIONS direction).2 8 (row + (DIRECTIONS direction).1)
            (col + (DIRECTIONS direction).2) po
        else po)
      ((BitboardUtils.get_player_board board player).1,
       (BitboardUtils.get_player_board board player).2)).2.testBit
      (idx row col) = false := by
    cases h : ((List.range 8).foldl
      (fun po direction =>
        if BitboardUtils.check_line row col direction player board then
          BitboardUtils.flipRay (DIRECTIONS direction).1
            (DIRECTIONS direction).2 8 (row + (DIRECTIONS direction).1)
            (col + (DIRECTIONS direction).2) po
        else po)
      ((BitboardUtils.get_player_board board player).1,
       (BitboardUtils.get_player_board board player).2)).2.testBit (idx row col)
    · rfl
    · exact absurd (BitboardUtils.flipDirs_o_anti row col player board
        (List.range 8) _ (idx row col) h)
        (by rw [hob0]; exact Bool.false_ne_true)
  have hfinal := disjoint_or_fresh (idx row col) gd hresB
  unfold Disjoint64
  simp only [RootBitboardUtils.flip_tiles]
  rcases hp with rfl | rfl
  · simpa using hfinal
  · simp only [BitboardUtils.get_player_board] at hfinal ⊢
    simpa [Nat.and_comm] using hfinal

/-- C2: applying a legal move with `flip_tiles` (`utils/bitboard_utils.py`)
yields a board with exactly one more disk in total, and the total never
decreases. -/
theorem C2_flip_tiles_disk_conservation (board : Bitboard) (player : Nat)
    (hp : player = 1 ∨ player = 2) (hfit : Fits64 board)
    (hdis : Disjoint64 board) (r c : Nat) (hr : r < 8) (hc : c < 8)
    (hval : BitboardUtils.is_valid_move ((r : Int), (c : Int)) player board
      = true) :
    BitboardUtils.count_ones
        (BitboardUtils.flip_tiles ((r : Int), (c : Int)) player board).1 +
      BitboardUtils.count_ones
        (BitboardUtils.flip_tiles ((r : Int), (c : Int)) player board).2 =
      BitboardUtils.count_ones board.1 + BitboardUtils.count_ones board.2
        + 1 ∧
    BitboardUtils.count_ones board.1 + BitboardUtils.count_ones board.2 ≤
      BitboardUtils.count_ones
          (BitboardUtils.flip_tiles ((r : Int), (c : Int)) player board).1 +
        BitboardUtils.count_ones
          (BitboardUtils.flip_tiles ((r : Int), (c : Int)) player board).2 := by
  have hocc := is_valid_move_not_occupied _ _ _ hval
  have hB : idx (r : Int) (c : Int) < 64 := by
    rw [idx_coe r c hr hc]; omega
  obtain ⟨heq, -⟩ := flip_tiles_core board player hp hfit hdis _ _ hB hocc
  exact ⟨heq, by omega⟩

/-- C2 witness: player 1 playing (2, 3) on the opening board. -/
theorem C2_flip_tiles_disk_conservation_witness :
    BitboardUtils.is_valid_move (((2 : Nat) : Int), ((3 : Nat) : Int)) 1
      openingBoard = true ∧
    BitboardUtils.count_ones
        (BitboardUtils.flip_tiles (((2 : Nat) : Int), ((3 : Nat) : Int)) 1
          openingBoard).1 +
      BitboardUtils.count_ones
        (BitboardUtils.flip_tiles (((2 : Nat) : Int), ((3 : Nat) : Int)) 1
          openingBoard).2 =
      BitboardUtils.count_ones openingBoard.1 +
        BitboardUtils.count_ones openingBoard.2 + 1 :=
  ⟨by decide,
   (C2_flip_tiles_disk_conservation openingBoard 1 (Or.inl rfl)
     (by exact ⟨by decide, by decide⟩)
     (by show openingBoard.1 &&& openingBoard.2 = 0; decide)
     2 3 (by decide) (by decide) (by decide)).1⟩

/-- C6: both `flip_tiles` implementations (`utils/bitboard_utils.py` and the
repository-root `bitboard_utils.py`) preserve the invariant
`own & opponent == 0` on every legal move. -/
theorem C6_flip_tiles_preserves_disjointness (board : Bitboard) (player : Nat)
    (hp : player = 1 ∨ player = 2) (hfit : Fits64 board)
    (hdis : Disjoint64 board) (r c : Nat) (hr : r < 8) (hc : c < 8)
    (hval : BitboardUtils.is_valid_move ((r : Int), (c : Int)) player board
      = true) :
    Disjoint64 (BitboardUtils.flip_tiles ((r : Int), (c : Int)) player board) ∧
    Disjoint64 (RootBitboardUtils.flip_tiles ((r : Int), (c : Int)) player
      board) := by
  have hocc := is_valid_move_not_occupied _ _ _ hval
  have hB : idx (r : Int) (c : Int) < 64 := by
    rw [idx_coe r c hr hc]; omega
  exact ⟨(flip_tiles_core board player hp hfit hdis _ _ hB hocc).2,
    root_flip_tiles_core board player hp hfit hdis _ _ hocc⟩

/-- C6 witness: player 1 playing (2, 3) on the opening board. -/
theorem C6_flip_tiles_preserves_disjointness_witness :
    BitboardUtils.is_valid_move (((2 : Nat) : Int), ((3 : Nat) : Int)) 1
      openingBoard = true ∧
    Disjoint64 (BitboardUtils.flip_tiles (((2 : Nat) : Int), ((3 : Nat) : Int))
      1 openingBoard) ∧
    Disjoint64 (RootBitboardUtils.flip_tiles
      (((2 : Nat) : Int), ((3 : Nat) : Int)) 1 openingBoard) :=
  ⟨by decide,
   (C6_flip_tiles_preserves_disjointness openingBoard 1 (Or.inl rfl)
     (by exact ⟨by decide, by decide⟩)
     (by show openingBoard.1 &&& openingBoard.2 = 0; decide)
     2 3 (by decide) (by decide) (by decide)).1,
   (C6_flip_tiles_preserves_disjointness openingBoard 1 (Or.inl rfl)
     (by exact ⟨by decide, by decide⟩)
     (by show openingBoard.1 &&& openingBoard.2 = 0; decide)
     2 3 (by decide) (by decide) (by decide)).2⟩

end Othello

namespace Othello

end Othello

namespace Othello

namespace ArrayUtils

/-- Full characterization of the `check_line` walk of `array_utils.py`:
it advances through some `m ≤ fuel` consecutive on-board cells equal to
`target`, returns the position after them with count increased by `m`, and
(unless the fuel ran out) stops at the first cell failing the loop
condition. -/
theorem lineWalk2D_spec (board : Board2D) (target : Int) (dr dc : Int) :
    ∀ (fuel : Nat) (r c : Int) (n : Nat),
    ∃ m : Nat, m ≤ fuel ∧
      lineWalk2D board target dr dc fuel r c n =
        (r + (m : Int) * dr, c + (m : Int) * dc, n + m) ∧
      (∀ j : Nat, j < m →
        inRange (r + (j : Int) * dr) (c + (j : Int) * dc) = true ∧
        cell board (r + (j : Int) * dr) (c + (j : Int) * dc) = target) ∧
      (m = fuel ∨ (inRange (r + (m : Int) * dr) (c + (m : Int) * dc) &&
        decide (cell board (r + (m : Int) * dr) (c + (m : Int) * dc)
          = target)) = false) := by
  intro fuel
  induction fuel with
  | zero =>
    intro r c n
    refine ⟨0, le_refl 0, by simp [lineWalk2D], ?_, Or.inl rfl⟩
    exact fun j hj => absurd hj (Nat.not_lt_zero j)
  | succ fuel ih =>
    intro r c n
    by_cases h : (inRange r c && decide (cell board r c = target)) = true
    · obtain ⟨m, hm, heq, hchain, hlast⟩ := ih (r + dr) (c + dc) (n + 1)
      refine ⟨m + 1, by omega, ?_, ?_, ?_⟩
      · simp only [lineWalk2D, h, if_true]
        rw [heq]
        simp only [Prod.mk.injEq]
        refine ⟨by push_cast; ring, by push_cast; ring, by omega⟩
      · intro j hj
        cases j with
        | zero =>
          simpa using (Bool.and_eq_true _ _).mp h
        | succ j =>
          have hc := hchain j (by omega)
          have e1 : r + ((j + 1 : Nat) : Int) * dr = r + dr + (j : Int) * dr := by
            push_cast; ring
          have e2 : c + ((j + 1 : Nat) : Int) * dc = c + dc + (j : Int) * dc := by
            push_cast; ring
          rw [e1, e2]
          exact hc
      · rcases hlast with h8 | hfalse
        · exact Or.inl (by omega)
        · right
          have e1 : r + ((m + 1 : Nat) : Int) * dr = r + dr + (m : Int) * dr := by
            push_cast; ring
          have e2 : c + ((m + 1 : Nat) : Int) * dc = c + dc + (m : Int) * dc := by
            push_cast; ring
          rw [e1, e2]
          exact hfalse
    · refine ⟨0, by omega, ?_, ?_, ?_⟩
      · simp only [lineWalk2D, h, if_false]
        simp
      · exact fun j hj => absurd hj (Nat.not_lt_zero j)
      · right
        simpa using h

/-- `check_line` of `array_utils.py` decides exactly the claim's ray
condition.  (The bracket-end cell holds `player`, which can never equal the
walk target `3 - player` — `2 * player = 3` has no integer solution — so the
walk is guaranteed to stop there; no extra invariant is needed.) -/
theorem check_line2D_iff_specRay2D (row col : Int) (d : Nat) (hd : d < 8)
    (player : Int) (board : Board2D) :
    check_line row col (DIRECTIONS d) player board = true ↔
      specRay2D board player row col (DIRECTIONS d).1 (DIRECTIONS d).2 := by
  set dr := (DIRECTIONS d).1 with hdr
  set dc := (DIRECTIONS d).2 with hdc
  obtain ⟨m, hm, heq, hchain, hlast⟩ :=
    lineWalk2D_spec board (3 - player) dr dc 8 (row + dr) (col + dc) 0
  have hpos : ∀ j : Nat, row + dr + (j : Int) * dr =
      row + ((j + 1 : Nat) : Int) * dr := by
    intro j; push_cast; ring
  have hpos2 : ∀ j : Nat, col + dc + (j : Int) * dc =
      col + ((j + 1 : Nat) : Int) * dc := by
    intro j; push_cast; ring
  constructor
  · intro hcl
    simp only [check_line] at hcl
    rw [← hdr, ← hdc, heq] at hcl
    simp only [Bool.and_eq_true, decide_eq_true_eq] at hcl
    obtain ⟨hin, hpcell, hn⟩ := hcl
    refine ⟨m, by omega, ?_, ?_, ?_⟩
    · intro j h1 hj
      have hc := hchain (j - 1) (by omega)
      rw [hpos, hpos2] at hc
      have hj1 : j - 1 + 1 = j := by omega
      rw [hj1] at hc
      exact hc
    · rw [hpos, hpos2] at hin
      simpa using hin
    · rw [hpos, hpos2] at hpcell
      simpa using hpcell
  · rintro ⟨k, hk1, hkchain, hkin, hkcell⟩
    have hmk : m = k := by
      rcases Nat.lt_trichotomy m k with hlt | heqmk | hgt
      · rcases hlast with hm8 | hfalse
        · subst hm8
          refine absurd ?_
            (fun h => directions_no_nine d hd (row + dr) (col + dc) h)
          intro j hj
          have hc := (hkchain (j + 1) (by omega) (by omega)).1
          rw [hpos j, hpos2 j]
          exact hc
        · have hc := hkchain (m + 1) (by omega) (by omega)
          rw [← hpos m, ← hpos2 m] at hc
          rw [hc.1, hc.2] at hfalse
          simp at hfalse
      · exact heqmk
      · have hc := hchain k (by omega)
        rw [hpos, hpos2] at hc
        rw [hkcell] at hc
        have : (2 : Int) * player = 3 := by linarith [hc.2]
        omega
    subst hmk
    simp only [check_line]
    rw [← hdr, ← hdc, heq]
    simp only [Bool.and_eq_true, decide_eq_true_eq]
    refine ⟨?_, ?_, by omega⟩
    · rw [hpos, hpos2]
      exact hkin
    · rw [hpos, hpos2]
      exact hkcell

end ArrayUtils

end Othello


namespace Othello

namespace ArrayUtils

/-- Writing one cell leaves every other cell unchanged. -/
theorem cell_setCell_ne (b : Board2D) (r c v X Y : Int)
    (h : X.toNat ≠ r.toNat ∨ Y.toNat ≠ c.toNat) :
    cell (setCell b r c v) X Y = cell b X Y := by
  unfold cell setCell
  simp only [List.getD_eq_getElem?_getD]
  rcases h with h | h
  · rw [List.getElem?_set_ne (Ne.symm h)]
  · by_cases hrow : X.toNat = r.toNat
    · rw [hrow]
      by_cases hlen : r.toNat < b.length
      · rw [List.getElem?_set_self hlen, Option.getD_some,
          List.getElem?_set_ne (Ne.symm h)]
      · rw [List.set_eq_of_length_le (le_of_not_lt hlen)]
    · rw [List.getElem?_set_ne (Ne.symm hrow)]

/-- Writing an in-range cell of a well-shaped board stores the value. -/
theorem cell_setCell_same (b : Board2D) (r c v : Int)
    (hsh : Shape2D b) (hin : inRange r c = true) :
    cell (setCell b r c v) r c = v := by
  simp only [inRange, Bool.and_eq_true, decide_eq_true_eq] at hin
  have hlen : r.toNat < b.length := by rw [hsh.1]; omega
  have hrowmem : b.getD r.toNat [] ∈ b := by
    rw [List.getD_eq_getElem?_getD, List.getElem?_eq_getElem hlen,
      Option.getD_some]
    exact List.getElem_mem hlen
  have hlen2 : c.toNat < (b.getD r.toNat []).length := by
    rw [hsh.2 _ hrowmem]; omega
  unfold cell setCell
  simp only [List.getD_eq_getElem?_getD] at hlen2 ⊢
  rw [List.getElem?_set_self hlen, Option.getD_some,
    List.getElem?_set_self hlen2, Option.getD_some]

/-- Writing value `v` somewhere never destroys a cell already holding `v`. -/
theorem cell_setCell_mono (b : Board2D) (r c v X Y : Int)
    (h : cell b X Y = v) : cell (setCell b r c v) X Y = v := by
  by_cases hX : X.toNat = r.toNat
  · by_cases hY : Y.toNat = c.toNat
    · unfold cell setCell
      unfold cell at h
      simp only [List.getD_eq_getElem?_getD] at h ⊢
      rw [hX, hY]
      rw [hX, hY] at h
      by_cases hlen : r.toNat < b.length
      · rw [List.getElem?_set_self hlen, Option.getD_some]
        by_cases hlen2 : c.toNat < (b.getD r.toNat []).length
        · simp only [List.getD_eq_getElem?_getD] at hlen2
          rw [List.getElem?_set_self hlen2, Option.getD_some]
        · simp only [List.getD_eq_getElem?_getD] at hlen2
          rw [List.set_eq_of_length_le (le_of_not_lt hlen2)]
          exact h
      · rw [List.set_eq_of_length_le (le_of_not_lt hlen)]
        exact h
    · rw [cell_setCell_ne b r c v X Y (Or.inr hY)]
      exact h
  · rw [cell_setCell_ne b r c v X Y (Or.inl hX)]
    exact h

/-- `setCell` preserves the 8×8 shape. -/
theorem setCell_shape (b : Board2D) (r c v : Int) (hsh : Shape2D b) :
    Shape2D (setCell b r c v) := by
  unfold setCell
  by_cases hlen : r.toNat < b.length
  · refine ⟨by rw [List.length_set]; exact hsh.1, ?_⟩
    intro row hrow
    rcases List.mem_or_eq_of_mem_set hrow with h | h
    · exact hsh.2 _ h
    · subst h
      rw [List.length_set]
      apply hsh.2
      rw [List.getD_eq_getElem?_getD, List.getElem?_eq_getElem hlen,
        Option.getD_some]
      exact List.getElem_mem hlen
  · rw [List.set_eq_of_length_le (le_of_not_lt hlen)]
    exact hsh

/-- The flipping walk only writes `player` cells: a cell already holding
`player` still holds it afterwards. -/
theorem flipWalk2D_mono (player dr dc : Int) :
    ∀ (fuel : Nat) (rr cc : Int) (b : Board2D) (X Y : Int),
    cell b X Y = player →
    cell (flipWalk2D player dr dc fuel rr cc b) X Y = player := by
  intro fuel
  induction fuel with
  | zero => intro rr cc b X Y h; exact h
  | succ fuel ih =>
    intro rr cc b X Y h
    rw [flipWalk2D]
    split
    · exact ih _ _ _ _ _ (cell_setCell_mono b rr cc player X Y h)
    · exact h

/-- The flipping walk preserves the board shape. -/
theorem flipWalk2D_shape (player dr dc : Int) :
    ∀ (fuel : Nat) (rr cc : Int) (b : Board2D), Shape2D b →
    Shape2D (flipWalk2D player dr dc fuel rr cc b) := by
  intro fuel
  induction fuel with
  | zero => intro rr cc b h; exact h
  | succ fuel ih =>
    intro rr cc b h
    rw [flipWalk2D]
    split
    · exact ih _ _ _ (setCell_shape b rr cc player h)
    · exact h

/-- The first cell of a fired flipping walk ends up holding `player`. -/
theorem flipWalk2D_head (player dr dc : Int) (fuel : Nat) (rr cc : Int)
    (b : Board2D) (hsh : Shape2D b) (hin : inRange rr cc = true)
    (hne : cell b rr cc ≠ player) :
    cell (flipWalk2D player dr dc (fuel + 1) rr cc b) rr cc = player := by
  rw [flipWalk2D]
  rw [if_pos (by simp [hin, hne])]
  exact flipWalk2D_mono player dr dc fuel _ _ _ _ _
    (cell_setCell_same b rr cc player hsh hin)

end ArrayUtils

end Othello

namespace Othello

namespace ArrayUtils

/-- The `check_line` walk never reads a cell whose write was off its path:
if every on-board position of the walk differs (as an array index) from the
written cell, the walk is unchanged by the write. -/
theorem lineWalk2D_setCell (board : Board2D) (target dr dc m1 m2 v : Int) :
    ∀ (fuel : Nat) (r c : Int) (n : Nat),
    (∀ j : Nat, inRange (r + (j : Int) * dr) (c + (j : Int) * dc) = true →
      ((r + (j : Int) * dr).toNat ≠ m1.toNat ∨
       (c + (j : Int) * dc).toNat ≠ m2.toNat)) →
    lineWalk2D (setCell board m1 m2 v) target dr dc fuel r c n =
      lineWalk2D board target dr dc fuel r c n := by
  intro fuel
  induction fuel with
  | zero => intro r c n H; rfl
  | succ fuel ih =>
    intro r c n H
    by_cases hin : inRange r c = true
    · have h0 : r.toNat ≠ m1.toNat ∨ c.toNat ≠ m2.toNat := by
        have := H 0 (by simpa using hin)
        simpa using this
      have hcell : cell (setCell board m1 m2 v) r c = cell board r c :=
        cell_setCell_ne board m1 m2 v r c h0
      rw [lineWalk2D, lineWalk2D, hcell]
      by_cases hcond : (inRange r c && decide (cell board r c = target)) = true
      · rw [if_pos hcond, if_pos hcond]
        apply ih
        intro j hj
        have e1 : r + dr + (j : Int) * dr = r + ((j + 1 : Nat) : Int) * dr := by
          push_cast; ring
        have e2 : c + dc + (j : Int) * dc = c + ((j + 1 : Nat) : Int) * dc := by
          push_cast; ring
        rw [e1, e2] at hj ⊢
        exact H (j + 1) hj
      · rw [if_neg hcond, if_neg hcond]
    · have hfalse : inRange r c = false := by simpa using hin
      rw [lineWalk2D, lineWalk2D, hfalse]
      simp

/-- Placing the move disk does not change any `check_line` answer from the
move square: the walk starts beside the move square and never returns to
it. -/
theorem check_line_setCell_move (board : Board2D) (player v : Int)
    (row col : Int) (hin : inRange row col = true) (d : Nat) (hd : d < 8) :
    check_line row col (DIRECTIONS d) player (setCell board row col v) =
      check_line row col (DIRECTIONS d) player board := by
  have hdir : ¬((DIRECTIONS d).1 = 0 ∧ (DIRECTIONS d).2 = 0) := by
    interval_cases d <;> simp [DIRECTIONS]
  have hne : ∀ j : Nat,
      inRange (row + (DIRECTIONS d).1 + (j : Int) * (DIRECTIONS d).1)
        (col + (DIRECTIONS d).2 + (j : Int) * (DIRECTIONS d).2) = true →
      ((row + (DIRECTIONS d).1 + (j : Int) * (DIRECTIONS d).1).toNat ≠
        row.toNat ∨
       (col + (DIRECTIONS d).2 + (j : Int) * (DIRECTIONS d).2).toNat ≠
        col.toNat) := by
    intro j hinj
    by_contra hcon
    push_neg at hcon
    obtain ⟨h1, h2⟩ := hcon
    simp only [inRange, Bool.and_eq_true, decide_eq_true_eq] at hin hinj
    have e1 : row + (DIRECTIONS d).1 + (j : Int) * (DIRECTIONS d).1 = row := by
      omega
    have e2 : col + (DIRECTIONS d).2 + (j : Int) * (DIRECTIONS d).2 = col := by
      omega
    refine hdir ⟨?_, ?_⟩
    · have hz : ((j : Int) + 1) * (DIRECTIONS d).1 = 0 := by linarith
      rcases mul_eq_zero.mp hz with hz | hz
      · exfalso
        have : (0 : Int) ≤ (j : Int) := Int.natCast_nonneg j
        omega
      · exact hz
    · have hz : ((j : Int) + 1) * (DIRECTIONS d).2 = 0 := by linarith
      rcases mul_eq_zero.mp hz with hz | hz
      · exfalso
        have : (0 : Int) ≤ (j : Int) := Int.natCast_nonneg j
        omega
      · exact hz
  have hwalk := lineWalk2D_setCell board (3 - player) (DIRECTIONS d).1
    (DIRECTIONS d).2 row col v 8 (row + (DIRECTIONS d).1)
    (col + (DIRECTIONS d).2) 0 hne
  obtain ⟨m, hm, heq, hchain, hlast⟩ := lineWalk2D_spec board (3 - player)
    (DIRECTIONS d).1 (DIRECTIONS d).2 8 (row + (DIRECTIONS d).1)
    (col + (DIRECTIONS d).2) 0
  simp only [check_line, hwalk, heq]
  by_cases hfin : inRange (row + (DIRECTIONS d).1 + (m : Int) * (DIRECTIONS d).1)
      (col + (DIRECTIONS d).2 + (m : Int) * (DIRECTIONS d).2) = true
  · rw [cell_setCell_ne board row col v _ _ (hne m hfin)]
  · have hfalse : inRange (row + (DIRECTIONS d).1 + (m : Int) * (DIRECTIONS d).1)
        (col + (DIRECTIONS d).2 + (m : Int) * (DIRECTIONS d).2) = false := by
      simpa using hfin
    rw [hfalse]
    simp

/-- `is_valid_move` of `array_utils.py` only accepts free squares. -/
theorem is_valid_move2D_cell0 (move : Int × Int) (player : Int)
    (board : Board2D) (hval : is_valid_move move player board = true) :
    cell board move.1 move.2 = 0 := by
  by_cases h : cell board move.1 move.2 = 0
  · exact h
  · exfalso
    simp only [is_valid_move] at hval
    rw [if_pos h] at hval
    exact Bool.false_ne_true hval

/-- `is_valid_move` of `array_utils.py` decides exactly the claim's
legality condition. -/
theorem is_valid_move2D_iff (board : Board2D) (player : Int) (r c : Nat) :
    is_valid_move ((r : Int), (c : Int)) player board = true ↔
      specLegal2D board player r c := by
  constructor
  · intro hval
    have h0 := is_valid_move2D_cell0 _ _ _ hval
    simp only [is_valid_move] at hval
    rw [if_neg (by simp [h0])] at hval
    simp only [List.any_eq_true, List.mem_range] at hval
    obtain ⟨d, hd8, hcl⟩ := hval
    exact ⟨h0, d, hd8,
      (check_line2D_iff_specRay2D _ _ d hd8 player board).mp hcl⟩
  · rintro ⟨h0, d, hd8, hray⟩
    simp only [is_valid_move]
    rw [if_neg (by simp [h0])]
    simp only [List.any_eq_true, List.mem_range]
    exact ⟨d, hd8, (check_line2D_iff_specRay2D _ _ d hd8 player board).mpr hray⟩

/-- Membership in `get_possible_moves` of `array_utils.py`, unfolded. -/
theorem mem_get_possible_moves2D (player : Int) (board : Board2D)
    (r c : Nat) :
    ((r : Int), (c : Int)) ∈ get_possible_moves player board ↔
      r < 8 ∧ c < 8 ∧
      is_valid_move ((r : Int), (c : Int)) player board = true := by
  constructor
  · intro hmem
    simp only [get_possible_moves, List.mem_flatMap] at hmem
    obtain ⟨r', hr'mem, hmem2⟩ := hmem
    rw [List.mem_filterMap] at hmem2
    obtain ⟨c', hc'mem, hf⟩ := hmem2
    rw [List.mem_range] at hr'mem hc'mem
    by_cases hcond : (decide (cell board (r' : Int) (c' : Int) = 0) &&
        is_valid_move ((r' : Int), (c' : Int)) player board) = true
    · rw [if_pos hcond] at hf
      have h1 : (r' : Int) = (r : Int) :=
        congrArg Prod.fst (Option.some.injEq _ _ ▸ hf)
      have h2 : (c' : Int) = (c : Int) :=
        congrArg Prod.snd (Option.some.injEq _ _ ▸ hf)
      have hr0 : r' = r := by exact_mod_cast h1
      have hc0 : c' = c := by exact_mod_cast h2
      subst hr0
      subst hc0
      exact ⟨hr'mem, hc'mem, ((Bool.and_eq_true _ _).mp hcond).2⟩
    · rw [if_neg hcond] at hf
      exact absurd hf (Option.noConfusion)
  · rintro ⟨h1, h2, hval⟩
    simp only [get_possible_moves, List.mem_flatMap]
    refine ⟨r, List.mem_range.mpr h1, ?_⟩
    rw [List.mem_filterMap]
    refine ⟨c, List.mem_range.mpr h2, ?_⟩
    rw [if_pos]
    · exact (Bool.and_eq_true _ _).mpr
        ⟨decide_eq_true (is_valid_move2D_cell0 _ _ _ hval), hval⟩

/-- The direction fold of `flip_tiles` only writes `player` cells. -/
theorem fold2D_mono (move : Int × Int) (player : Int) :
    ∀ (l : List Nat) (b : Board2D) (X Y : Int), cell b X Y = player →
    cell (l.foldl (fun b d =>
      if check_line move.1 move.2 (DIRECTIONS d) player b then
        flipWalk2D player (DIRECTIONS d).1 (DIRECTIONS d).2 8
          (move.1 + (DIRECTIONS d).1) (move.2 + (DIRECTIONS d).2) b
      else b) b) X Y = player := by
  intro l
  induction l with
  | nil => intro b X Y h; exact h
  | cons a l ih =>
    intro b X Y h
    simp only [List.foldl_cons]
    by_cases ha : check_line move.1 move.2 (DIRECTIONS a) player b = true
    · rw [if_pos ha]
      exact ih _ _ _ (flipWalk2D_mono player _ _ 8 _ _ b X Y h)
    · rw [if_neg ha]
      exact ih _ _ _ h

/-- If some direction's `check_line` fires on the board entering the
direction fold, the fold flips that ray's first cell: an opponent cell of
the entering board holds `player` afterwards. -/
theorem fold2D_first_flip (move : Int × Int) (player : Int) :
    ∀ (l : List Nat), (∀ d ∈ l, d < 8) → ∀ (b0 : Board2D), Shape2D b0 →
    (∃ d ∈ l, check_line move.1 move.2 (DIRECTIONS d) player b0 = true) →
    ∃ nr nc : Int, inRange nr nc = true ∧ cell b0 nr nc = 3 - player ∧
      cell (l.foldl (fun b d =>
        if check_line move.1 move.2 (DIRECTIONS d) player b then
          flipWalk2D player (DIRECTIONS d).1 (DIRECTIONS d).2 8
            (move.1 + (DIRECTIONS d).1) (move.2 + (DIRECTIONS d).2) b
        else b) b0) nr nc = player := by
  intro l
  induction l with
  | nil =>
    rintro - b0 - ⟨d, hd, -⟩
    exact absurd hd (List.not_mem_nil d)
  | cons a l ih =>
    intro hlt b0 hsh hex
    simp only [List.foldl_cons]
    by_cases hPa : check_line move.1 move.2 (DIRECTIONS a) player b0 = true
    · have ha8 : a < 8 := hlt a (List.mem_cons_self a l)
      obtain ⟨k, hk1, hchain, -, -⟩ :=
        (check_line2D_iff_specRay2D move.1 move.2 a ha8 player b0).mp hPa
      obtain ⟨hin1, hcell1⟩ := hchain 1 le_rfl hk1
      have e1 : move.1 + ((1 : Nat) : Int) * (DIRECTIONS a).1 =
          move.1 + (DIRECTIONS a).1 := by push_cast; ring
      have e2 : move.2 + ((1 : Nat) : Int) * (DIRECTIONS a).2 =
          move.2 + (DIRECTIONS a).2 := by push_cast; ring
      rw [e1, e2] at hin1 hcell1
      have hne : cell b0 (move.1 + (DIRECTIONS a).1)
          (move.2 + (DIRECTIONS a).2) ≠ player := by
        rw [hcell1]
        intro hcon
        omega
      refine ⟨move.1 + (DIRECTIONS a).1, move.2 + (DIRECTIONS a).2, hin1,
        hcell1, ?_⟩
      rw [if_pos hPa]
      exact fold2D_mono move player l _ _ _
        (flipWalk2D_head player _ _ 7 _ _ b0 hsh hin1 hne)
    · rw [if_neg hPa]
      refine ih (fun d hd => hlt d (List.mem_cons_of_mem a hd)) b0 hsh ?_
      obtain ⟨d, hdmem, hPd⟩ := hex
      rcases List.mem_cons.mp hdmem with rfl | hdm
      · exact absurd hPd hPa
      · exact ⟨d, hdm, hPd⟩

/-- A legal move of `array_utils.py`, applied with its `flip_tiles`, flips
at least one opponent cell to `player`. -/
theorem flip_tiles2D_flips (board : Board2D) (player : Int)
    (hsh : Shape2D board) (r c : Nat) (hr : r < 8) (hc : c < 8)
    (hval : is_valid_move ((r : Int), (c : Int)) player board = true) :
    ∃ nr nc : Int, inRange nr nc = true ∧ cell board nr nc = 3 - player ∧
      cell (flip_tiles ((r : Int), (c : Int)) player board) nr nc
        = player := by
  have hmin : inRange (r : Int) (c : Int) = true := by
    simp only [inRange, Bool.and_eq_true, decide_eq_true_eq]
    omega
  obtain ⟨h0, d0, hd0, hray⟩ :=
    (is_valid_move2D_iff board player r c).mp hval
  have hsh0 : Shape2D (setCell board (r : Int) (c : Int) player) :=
    setCell_shape board _ _ player hsh
  have hP0 : check_line (r : Int) (c : Int) (DIRECTIONS d0) player
      (setCell board (r : Int) (c : Int) player) = true := by
    rw [check_line_setCell_move board player player (r : Int) (c : Int)
      hmin d0 hd0]
    exact (check_line2D_iff_specRay2D _ _ d0 hd0 player board).mpr hray
  obtain ⟨nr, nc, hin, hcell, hflip⟩ := fold2D_first_flip
    ((r : Int), (c : Int)) player (List.range 8)
    (fun d hd => List.mem_range.mp hd)
    (setCell board (r : Int) (c : Int) player) hsh0
    ⟨d0, List.mem_range.mpr hd0, hP0⟩
  refine ⟨nr, nc, hin, ?_, ?_⟩
  · by_cases hsame : nr.toNat = (r : Int).toNat ∧ nc.toNat = (c : Int).toNat
    · exfalso
      have hcc : cell (setCell board (r : Int) (c : Int) player) nr nc =
          cell (setCell board (r : Int) (c : Int) player) (r : Int)
            (c : Int) := by
        unfold cell
        rw [hsame.1, hsame.2]
      rw [hcell, cell_setCell_same board _ _ player hsh hmin] at hcc
      omega
    · rw [cell_setCell_ne board (r : Int) (c : Int) player nr nc
        (not_and_or.mp hsame)] at hcell
      exact hcell
  · simp only [flip_tiles]
    exact hflip

end ArrayUtils

end Othello

namespace Othello

/-- C1: `get_possible_moves` returns exactly the squares satisfying the
claim's ray condition (empty square, some one of the 8 ray directions starts
with ≥ 1 contiguous opponent disks and ends on an on-board disk of the
moving side), and every returned move, passed to `flip_tiles`, flips at
least one opponent disk — for the bitboard implementation
(`utils/bitboard_utils.py`) and for the array implementation
(`array_utils.py`) alike. -/
theorem C1_get_possible_moves_spec (board : Bitboard) (player : Nat)
    (hp : player = 1 ∨ player = 2) (hfit : Fits64 board)
    (hdis : Disjoint64 board) (r c : Nat) (hr : r < 8) (hc : c < 8)
    (aboard : Board2D) (ap : Int) (hsh : Shape2D aboard)
    (r2 c2 : Nat) (hr2 : r2 < 8) (hc2 : c2 < 8) :
    ((r, c) ∈ BitboardUtils.get_possible_moves player board ↔
      specLegal board player r c) ∧
    ((r, c) ∈ BitboardUtils.get_possible_moves player board →
      ∃ i, i < 64 ∧
        (BitboardUtils.get_player_board board player).2.testBit i = true ∧
        (BitboardUtils.get_player_board
          (BitboardUtils.flip_tiles ((r : Int), (c : Int)) player board)
          player).1.testBit i = true ∧
        (BitboardUtils.get_player_board
          (BitboardUtils.flip_tiles ((r : Int), (c : Int)) player board)
          player).2.testBit i = false) ∧
    (((r2 : Int), (c2 : Int)) ∈ ArrayUtils.get_possible_moves ap aboard ↔
      specLegal2D aboard ap r2 c2) ∧
    (((r2 : Int), (c2 : Int)) ∈ ArrayUtils.get_possible_moves ap aboard →
      ∃ nr nc : Int, inRange nr nc = true ∧ cell aboard nr nc = 3 - ap ∧
        cell (ArrayUtils.flip_tiles ((r2 : Int), (c2 : Int)) ap aboard)
          nr nc = ap) := by
  have hmem_iff_val : (r, c) ∈ BitboardUtils.get_possible_moves player board ↔
      BitboardUtils.is_valid_move ((r : Int), (c : Int)) player board
        = true := by
    rw [mem_get_possible_moves]
    constructor
    · rintro ⟨-, -, -, h⟩
      exact h
    · intro h
      exact ⟨hr, hc, valid_en_bit board player hp hdis r c hr hc h, h⟩
  refine ⟨?_, ?_, ?_, ?_⟩
  · rw [hmem_iff_val]
    exact is_valid_move_iff_specLegal board player hp hdis r c hr hc
  · intro hmem
    have hval := hmem_iff_val.mp hmem
    have hspec :=
      (is_valid_move_iff_specLegal board player hp hdis r c hr hc).mp hval
    obtain ⟨hocc, d, hd8, hray⟩ := hspec
    have hd0 := gpb_disjoint board player hdis
    have hcl : BitboardUtils.check_line (r : Int) (c : Int) d player board
        = true :=
      (BitboardUtils.check_line_iff_specRay _ _ d hd8 player board hd0).mpr hray
    obtain ⟨k, hk1, hchain, -, -⟩ := hray
    obtain ⟨hin1, hbit1⟩ := hchain 1 le_rfl hk1
    have e1 : (r : Int) + ((1 : Nat) : Int) * (DIRECTIONS d).1 =
        (r : Int) + (DIRECTIONS d).1 := by push_cast; ring
    have e2 : (c : Int) + ((1 : Nat) : Int) * (DIRECTIONS d).2 =
        (c : Int) + (DIRECTIONS d).2 := by push_cast; ring
    rw [e1, e2] at hin1 hbit1
    obtain ⟨hf1, hf2⟩ := gpb_fits board player hfit
    have hB : idx (r : Int) (c : Int) < 64 := by
      rw [idx_coe r c hr hc]; omega
    have hone : (1 <<< idx (r : Int) (c : Int) : Nat) < 2 ^ 64 := by
      rw [Nat.shiftLeft_eq, one_mul]
      exact Nat.pow_lt_pow_right (by omega) hB
    have hinit1 : (BitboardUtils.get_player_board board player).1 |||
        (1 <<< idx (r : Int) (c : Int)) < 2 ^ 64 :=
      Nat.or_lt_two_pow hf1 hone
    have hunion :
        (((BitboardUtils.get_player_board board player).1 |||
            (1 <<< idx (r : Int) (c : Int)),
          (BitboardUtils.get_player_board board player).2).1.testBit
            (idx ((r : Int) + (DIRECTIONS d).1) ((c : Int) + (DIRECTIONS d).2)) ||
         ((BitboardUtils.get_player_board board player).1 |||
            (1 <<< idx (r : Int) (c : Int)),
          (BitboardUtils.get_player_board board player).2).2.testBit
            (idx ((r : Int) + (DIRECTIONS d).1) ((c : Int) + (DIRECTIONS d).2)))
          = true := by
      simp only [hbit1, Bool.or_true]
    have hflip := BitboardUtils.flipDirs_clears (r : Int) (c : Int) player
      board d hcl hin1 (List.range 8)
      ((BitboardUtils.get_player_board board player).1 |||
        (1 <<< idx (r : Int) (c : Int)),
       (BitboardUtils.get_player_board board player).2)
      (List.mem_range.mpr hd8) hinit1 hf2 hunion
    refine ⟨idx ((r : Int) + (DIRECTIONS d).1) ((c : Int) + (DIRECTIONS d).2),
      idx_lt_64 hin1, hbit1, ?_, ?_⟩
    · simp only [BitboardUtils.flip_tiles]
      rcases hp with rfl | rfl
      · simpa using hflip.1
      · simp only [BitboardUtils.get_player_board] at hflip ⊢
        simpa using hflip.1
    · simp only [BitboardUtils.flip_tiles]
      rcases hp with rfl | rfl
      · simpa using hflip.2
      · simp only [BitboardUtils.get_player_board] at hflip ⊢
        simpa using hflip.2
  · rw [ArrayUtils.mem_get_possible_moves2D]
    constructor
    · rintro ⟨-, -, hval⟩
      exact (ArrayUtils.is_valid_move2D_iff aboard ap r2 c2).mp hval
    · intro hspec
      exact ⟨hr2, hc2,
        (ArrayUtils.is_valid_move2D_iff aboard ap r2 c2).mpr hspec⟩
  · intro hmem2
    have hval2 := ((ArrayUtils.mem_get_possible_moves2D ap aboard
      r2 c2).mp hmem2).2.2
    exact ArrayUtils.flip_tiles2D_flips aboard ap hsh r2 c2 hr2 hc2 hval2

/-- C1 witness: on the opening board, (2, 3) is a returned move for player 1
and flips an opponent disk, in both implementations. -/
theorem C1_get_possible_moves_spec_witness :
    ((2, 3) ∈ BitboardUtils.get_possible_moves 1 openingBoard) ∧
    ((((2 : Nat) : Int), ((3 : Nat) : Int)) ∈
      ArrayUtils.get_possible_moves 1 openingBoard2D) ∧
    (∃ i, i < 64 ∧
      (BitboardUtils.get_player_board openingBoard 1).2.testBit i = true ∧
      (BitboardUtils.get_player_board
        (BitboardUtils.flip_tiles (((2 : Nat) : Int), ((3 : Nat) : Int)) 1
          openingBoard) 1).1.testBit i = true ∧
      (BitboardUtils.get_player_board
        (BitboardUtils.flip_tiles (((2 : Nat) : Int), ((3 : Nat) : Int)) 1
          openingBoard) 1).2.testBit i = false) ∧
    (∃ nr nc : Int, inRange nr nc = true ∧
      cell openingBoard2D nr nc = 3 - 1 ∧
      cell (ArrayUtils.flip_tiles (((2 : Nat) : Int), ((3 : Nat) : Int)) 1
        openingBoard2D) nr nc = 1) :=
  ⟨by decide, by decide,
   (C1_get_possible_moves_spec openingBoard 1 (Or.inl rfl)
     (by exact ⟨by decide, by decide⟩)
     (by show openingBoard.1 &&& openingBoard.2 = 0; decide)
     2 3 (by decide) (by decide) openingBoard2D 1
     (by exact ⟨rfl, by decide⟩) 2 3 (by decide) (by decide)).2.1
     (by decide),
   (C1_get_possible_moves_spec openingBoard 1 (Or.inl rfl)
     (by exact ⟨by decide, by decide⟩)
     (by show openingBoard.1 &&& openingBoard.2 = 0; decide)
     2 3 (by decide) (by decide) openingBoard2D 1
     (by exact ⟨rfl, by decide⟩) 2 3 (by decide) (by decide)).2.2.2
     (by decide)⟩

end Othello
